import Mathlib

/-!
# Porting.cpp: the portability layer of the runtime

A shallow embedding of `runtime/src/main/cpp/Porting.cpp` and theorems about it.

* Pointers are natural numbers, `0` is `nullptr`.
* The C heap holding `DestructorRecord`s is a partial map from addresses to records.
* Calls that leave the program (destructor invocations, `free`, the WebAssembly
  memory primitives, the growth notification) are recorded in a trace.
* Loops over a pointer graph take a fuel argument; the theorems say how much fuel
  is enough.
-/

namespace konan

/-! ## Thread exit: the destructor chain -/

/-- Ways in which an execution stops without returning a value. -/
inductive Fault where
  /-- a load or store through `nullptr` (undefined behaviour in C++) -/
  | nullDereference
  /-- a load, store or `free` at an address holding no live record -/
  | invalidPointer
  /-- the process called `abort()` -/
  | aborted
  /-- the fuel of a loop model ran out -/
  | outOfFuel
  deriving DecidableEq, Repr

/-- The `struct DestructorRecord` of Porting.cpp; pointers are addresses. -/
structure DestructorRecord where
  next : Nat
  destructor : Nat
  destructorParameter : Nat
  deriving DecidableEq, Repr

/-- Observable actions of the thread-exit machinery. -/
inductive Event where
  /-- the call `destructor(destructorParameter)` -/
  | call (destructor : Nat) (destructorParameter : Nat)
  /-- the call `free(record)` -/
  | free (record : Nat)
  deriving DecidableEq, Repr

/-- Process state seen by `onThreadExit` and `onThreadExitCallback`:
the once-initialised key, the heap of records, the value of `terminationKey`
in every thread, and the trace of calls made so far. -/
structure Threads where
  terminationKeyCreated : Bool
  heap : Nat → Option DestructorRecord
  slot : Nat → Nat
  trace : List Event

/-- The `onThreadExit` of Porting.cpp (threads build), run on thread `t`.
`callocResult` is what `calloc(1, sizeof(DestructorRecord))` returned, `0` when the
allocation failed. The three field stores go through `destructorRecord`; the code
has no null check, so with `callocResult = 0` the first store is a store through
`nullptr`. -/
def onThreadExit (t : Nat) (callocResult : Nat) (destructor destructorParameter : Nat)
    (s : Threads) : Except Fault Threads :=
  -- pthread_once(&terminationKeyOnceControl, onThreadExitInit)
  let s := { s with terminationKeyCreated := true }
  -- DestructorRecord* destructorRecord = calloc(1, sizeof(DestructorRecord))
  let destructorRecord := callocResult
  let zeroed : DestructorRecord := ⟨0, 0, 0⟩
  -- destructorRecord->destructor = destructor
  if destructorRecord = 0 then .error .nullDereference else
  let r := { zeroed with destructor := destructor }
  -- destructorRecord->destructorParameter = destructorParameter
  let r := { r with destructorParameter := destructorParameter }
  -- destructorRecord->next = pthread_getspecific(terminationKey)
  let r := { r with next := s.slot t }
  -- pthread_setspecific(terminationKey, destructorRecord)
  .ok { s with heap := Function.update s.heap destructorRecord (some r),
               slot := Function.update s.slot t destructorRecord }

/-- The `while (record != nullptr)` loop of `onThreadExitCallback`. A destructor is
an opaque call: it is recorded in the trace and changes neither heap nor slots. -/
def onThreadExitCallbackLoop : Nat → Nat → Threads → Except Fault Threads
  | 0, _, _ => .error .outOfFuel
  | fuel + 1, record, s =>
    if record = 0 then .ok s else
    match s.heap record with
    | none => .error .invalidPointer
    | some r =>
      -- record->destructor(record->destructorParameter)
      let s := { s with trace := s.trace ++ [Event.call r.destructor r.destructorParameter] }
      -- auto next = record->next
      let next := r.next
      -- free(record)
      let s := { s with heap := Function.update s.heap record none,
                        trace := s.trace ++ [Event.free record] }
      -- record = next
      onThreadExitCallbackLoop fuel next s

/-- The `onThreadExitCallback` of Porting.cpp, run on thread `t` with the slot
value `value`: drain the chain, then `pthread_setspecific(terminationKey, nullptr)`. -/
def onThreadExitCallback (fuel : Nat) (t : Nat) (value : Nat) (s : Threads) :
    Except Fault Threads :=
  match onThreadExitCallbackLoop fuel value s with
  | .error e => .error e
  | .ok s => .ok { s with slot := Function.update s.slot t 0 }

/-- One call `onThreadExit(destructor, destructorParameter)` together with the
address `calloc` returned for it. -/
structure Registration where
  address : Nat
  destructor : Nat
  destructorParameter : Nat
  deriving DecidableEq, Repr

/-- A sequence of `onThreadExit` calls on thread `t`, first registration first. -/
def registerAll (t : Nat) : List Registration → Threads → Except Fault Threads
  | [], s => .ok s
  | r :: rs, s =>
    match onThreadExit t r.address r.destructor r.destructorParameter s with
    | .error e => .error e
    | .ok s => registerAll t rs s

/-- The destructor calls of a trace, in order, as (destructor, parameter) pairs. -/
def calls : List Event → List (Nat × Nat)
  | [] => []
  | Event.call d p :: es => (d, p) :: calls es
  | Event.free _ :: es => calls es

/-- The addresses released in a trace, in order. -/
def frees : List Event → List Nat
  | [] => []
  | Event.call _ _ :: es => frees es
  | Event.free a :: es => a :: frees es

/-- What draining one record contributes to the trace. -/
def drainEvents : List Registration → List Event
  | [] => []
  | r :: rs =>
    Event.call r.destructor r.destructorParameter :: Event.free r.address :: drainEvents rs

/-- The heap after releasing the records of `l`. -/
def freeAll (l : List Registration) (heap : Nat → Option DestructorRecord) :
    Nat → Option DestructorRecord :=
  l.foldl (fun h r => Function.update h r.address none) heap

/-- The records of `l` form the chain starting at `head`: first element at `head`,
each `next` pointing to the following element, `nullptr` after the last. -/
def Chain (heap : Nat → Option DestructorRecord) : Nat → List Registration → Prop
  | head, [] => head = 0
  | head, r :: rs =>
    head = r.address ∧ head ≠ 0 ∧
      ∃ next, heap head = some ⟨next, r.destructor, r.destructorParameter⟩ ∧ Chain heap next rs

/-- A thread state with nothing registered anywhere. -/
def Threads.empty : Threads :=
  { terminationKeyCreated := false, heap := fun _ => none, slot := fun _ => 0, trace := [] }

/-! ## Machine integers -/

/-- The value of an integer expression stored in a `uint32_t`. -/
def toUInt32 (i : Int) : Nat := (i % 2 ^ 32).toNat

/-- The value of an unsigned 32-bit pattern read as `int32_t` (two's complement). -/
def toInt32 (n : Nat) : Int :=
  if n % 2 ^ 32 < 2 ^ 31 then (n % 2 ^ 32 : Nat) else ((n % 2 ^ 32 : Nat) : Int) - 2 ^ 32

/-! ## The growth shim, paged strategy (`KONAN_INTERNAL_DLMALLOC` with `KONAN_WASM`) -/

namespace wasm

/-- `constexpr uint32_t MFAIL = ~(uint32_t)0`. -/
def MFAIL : Nat := 2 ^ 32 - 1 - 0

/-- `constexpr uint32_t WASM_PAGESIZE_EXPONENT = 16`. -/
def WASM_PAGESIZE_EXPONENT : Nat := 16

/-- `constexpr uint32_t WASM_PAGESIZE = 1u << WASM_PAGESIZE_EXPONENT`. -/
def WASM_PAGESIZE : Nat := (1 <<< WASM_PAGESIZE_EXPONENT) % 2 ^ 32

/-- `constexpr uint32_t WASM_PAGEMASK = WASM_PAGESIZE-1`. -/
def WASM_PAGEMASK : Nat := WASM_PAGESIZE - 1

/-- `uint32_t pageAlign(int32_t value)`: the sum is taken in `uint32_t`, `~` is the
32-bit complement. -/
def pageAlign (value : Int) : Nat :=
  ((toUInt32 value + WASM_PAGEMASK) % 2 ^ 32) &&& (2 ^ 32 - 1 - WASM_PAGEMASK)

/-- `uint32_t inBytes(uint32_t pageCount)`. -/
def inBytes (pageCount : Nat) : Nat := (pageCount <<< WASM_PAGESIZE_EXPONENT) % 2 ^ 32

/-- `uint32_t inPages(uint32_t value)`. -/
def inPages (value : Nat) : Nat := value >>> WASM_PAGESIZE_EXPONENT

/-- Calls that leave the shim. -/
inductive MemoryEvent where
  /-- `__builtin_wasm_memory_grow(0, delta)` and the value it returned -/
  | memoryGrow (delta : Nat) (result : Nat)
  /-- `Konan_notify_memory_grow()`, with the memory size in pages at that moment -/
  | notifyMemoryGrow (pages : Nat)
  deriving DecidableEq, Repr

/-- The linear memory of the WebAssembly instance as the shim sees it: its current
size in pages, the largest size the platform will grant (at most 65536 pages on a
32-bit memory), and the calls made so far. -/
structure Memory where
  pages : Nat
  maxPages : Nat
  trace : List MemoryEvent
  deriving DecidableEq, Repr

/-- `uint32_t memorySize()`, i.e. `__builtin_wasm_memory_size(0)`: the size in pages. -/
def memorySize (m : Memory) : Nat := m.pages

/-- The compiler builtin `__builtin_wasm_memory_grow(0, delta)`, which is the
WebAssembly instruction `memory.grow`: it grows the memory by `delta` pages and
returns the previous size in pages, or leaves the memory alone and returns `-1`
(all ones) when the memory cannot be grown. -/
def wasmMemoryGrow (delta : Nat) (m : Memory) : Nat × Memory :=
  if m.pages + delta ≤ m.maxPages then
    (m.pages, { m with pages := m.pages + delta,
                       trace := m.trace ++ [MemoryEvent.memoryGrow delta m.pages] })
  else
    (2 ^ 32 - 1, { m with trace := m.trace ++ [MemoryEvent.memoryGrow delta (2 ^ 32 - 1)] })

/-- The external `Konan_notify_memory_grow()`. -/
def Konan_notify_memory_grow (m : Memory) : Memory :=
  { m with trace := m.trace ++ [MemoryEvent.notifyMemoryGrow m.pages] }

/-- `int32_t growMemory(uint32_t delta)`. -/
def growMemory (delta : Nat) (m : Memory) : Int × Memory :=
  -- int32_t oldLength = __builtin_wasm_memory_grow(0, delta)
  let (r, m) := wasmMemoryGrow delta m
  let oldLength := toInt32 r
  -- Konan_notify_memory_grow()
  let m := Konan_notify_memory_grow m
  (oldLength, m)

/-- `void* moreCore(int32_t delta)` of the paged strategy; the result is the
returned address as a 32-bit value. -/
def moreCore (delta : Int) (m : Memory) : Nat × Memory :=
  -- uint32_t top = inBytes(memorySize())
  let top := inBytes (memorySize m)
  if delta > 0 then
    let (r, m) := growMemory (inPages (pageAlign delta)) m
    if r = 0 then (MFAIL, m) else (top, m)
  else if delta < 0 then (MFAIL, m)
  else (top, m)

/-- `long getpagesize()` of the paged strategy. -/
def getpagesize : Nat := WASM_PAGESIZE

end wasm

/-! ## The growth shim, process-heap strategy (`KONAN_INTERNAL_DLMALLOC` without `KONAN_WASM`) -/

namespace processHeap

/-- The data segment of the process as `sbrk` sees it: the current program break,
the lowest and highest break the system accepts, and the width of an address. -/
structure DataSegment where
  programBreak : Nat
  lowest : Nat
  highest : Nat
  addressBits : Nat
  deriving DecidableEq, Repr

/-- The value `(void *) -1` that `sbrk` returns on error. -/
def sbrkFailed (d : DataSegment) : Nat := 2 ^ d.addressBits - 1

/-- The library call `sbrk(increment)`, as glibc implements it on Linux. An increment
of zero returns the break. An increment that would wrap around the address space fails
with `(void *) -1`. Otherwise the kernel is asked for the new break: it moves the break
when it accepts the address and leaves the break where it is when it does not, and it
reports the break that results. The call fails with `(void *) -1` only when the break
reported is below the address asked for, which is a refused growth; a refused shrink
leaves the break alone and the previous break is returned all the same. -/
def sbrk (increment : Int) (d : DataSegment) : Nat × DataSegment :=
  if increment = 0 then (d.programBreak, d) else
  let target : Int := (d.programBreak : Int) + increment
  let wraps : Prop := if increment > 0 then (2 : Int) ^ d.addressBits ≤ target else target < 0
  if wraps then (sbrkFailed d, d) else
  let reported : Nat :=
    if (d.lowest : Int) ≤ target ∧ target ≤ (d.highest : Int) then target.toNat
    else d.programBreak
  if (reported : Int) < target then (sbrkFailed d, d)
  else (d.programBreak, { d with programBreak := reported })

/-- `void* moreCore(int size)` of the process-heap strategy. -/
def moreCore (size : Int) (d : DataSegment) : Nat × DataSegment :=
  sbrk size d

end processHeap

/-! ## Console -/

/-- What `::write(STDOUT_FILENO, utf8, sizeBytes)` is asked to send: the array `utf8`
points into and the byte count. -/
structure WriteCall where
  utf8 : List Nat
  sizeBytes : Nat
  deriving DecidableEq, Repr

/-- The bytes the sink receives from a write call: the first `sizeBytes` bytes of the
array, or `none` when the count reaches past the end of the array (the bytes read
there are not defined by the program). -/
def WriteCall.received (w : WriteCall) : Option (List Nat) :=
  if w.sizeBytes ≤ w.utf8.length then some (w.utf8.take w.sizeBytes) else none

/-- `void consoleWriteUtf8(const void* utf8, uint32_t sizeBytes)`, not Android:
`::write(STDOUT_FILENO, utf8, sizeBytes)`. -/
def consoleWriteUtf8 (utf8 : List Nat) (sizeBytes : Nat) : WriteCall :=
  { utf8 := utf8, sizeBytes := sizeBytes }

/-- The C99 `vsnprintf(buffer, size, format, args)` (and the replacement
`rpl_vsnprintf`), where `rendered` is the complete text that `format` and `args`
denote: at most `size - 1` bytes of it are stored, followed by a NUL, and the value
returned is the length of the complete text, stored or not. -/
def vsnprintf_impl (buffer : List Nat) (size : Nat) (rendered : List Nat) : List Nat × Int :=
  if size = 0 then (buffer, rendered.length) else
  let stored := rendered.take (size - 1)
  (stored ++ [0] ++ buffer.drop (stored.length + 1), rendered.length)

/-- `void consolePrintf(const char* format, ...)`. `uninit` gives the indeterminate
initial bytes of `char buffer[1024]`; `rendered` is the complete text denoted by the
format and the arguments. -/
def consolePrintf (uninit : Nat → Nat) (rendered : List Nat) : WriteCall :=
  -- char buffer[1024]
  let buffer := (List.range 1024).map uninit
  -- int rv = vsnprintf_impl(buffer, sizeof(buffer) - 1, format, args)
  let (buffer, rv) := vsnprintf_impl buffer (1024 - 1) rendered
  -- consoleWriteUtf8(buffer, rv)
  consoleWriteUtf8 buffer (toUInt32 rv)

/-- The bytes `fgets` transfers with room for `limit` of them: it stops after a
newline, at end of input, or when the room is used up. -/
def fgetsChars : Nat → List Nat → List Nat
  | 0, _ => []
  | _ + 1, [] => []
  | limit + 1, c :: cs => if c = 10 then [c] else c :: fgetsChars limit cs

/-- The C library `fgets(s, n, stream)`: `input` is what is left of the stream. It
returns the new contents of `s` (`none` is the null pointer) and what is left of the
stream. With `n <= 0` it fails; with `n = 1` it stores just the NUL; otherwise it
transfers at most `n - 1` bytes, and if end of input comes before any byte it
returns the null pointer and leaves `s` alone. -/
def fgets (s : List Nat) (n : Int) (input : List Nat) : Option (List Nat) × List Nat :=
  if n ≤ 0 then (none, input) else
  let chars := fgetsChars (n.toNat - 1) input
  if chars = [] ∧ n ≠ 1 then (none, input) else
  (some (chars ++ [0] ++ s.drop (chars.length + 1)), input.drop chars.length)

/-- The C library `strlen`: the number of bytes before the first NUL. -/
def strlen : List Nat → Nat
  | [] => 0
  | c :: cs => if c = 0 then 0 else strlen cs + 1

/-- The trimming loop of `consoleReadUtf8`. The first argument is
`current - result + 1`, so it is `0` exactly when `current >= result` fails; the
byte `*current` is the one at index `current - result`. -/
def consoleReadUtf8Loop : Nat → Bool → List Nat → Int → List Nat × Int
  | 0, _, buffer, length => (buffer, length)
  | _ + 1, false, buffer, length => (buffer, length)
  | k + 1, true, buffer, length =>
    -- switch (*current)
    if buffer.getD k 0 = 10 ∨ buffer.getD k 0 = 13 then
      -- *current = 0; length--; current--
      consoleReadUtf8Loop k true (buffer.set k 0) (length - 1)
    else
      -- isTrimming = false; current--
      consoleReadUtf8Loop k false buffer length

/-- What a call of `consoleReadUtf8` leaves behind: the returned value, the buffer
and the rest of standard input. -/
structure ReadResult where
  value : Int
  utf8 : List Nat
  stdin : List Nat
  deriving DecidableEq, Repr

/-- `int32_t consoleReadUtf8(void* utf8, uint32_t maxSizeBytes)` where the file is
`stdin` (neither `KONAN_ZEPHYR` nor `KONAN_WASM`). -/
def consoleReadUtf8 (utf8 : List Nat) (maxSizeBytes : Nat) (stdin : List Nat) : ReadResult :=
  -- char* result = ::fgets(utf8, maxSizeBytes - 1, file)
  match fgets utf8 (toInt32 (toUInt32 ((maxSizeBytes : Int) - 1))) stdin with
  -- if (result == nullptr) return -1
  | (none, rest) => { value := -1, utf8 := utf8, stdin := rest }
  | (some result, rest) =>
    -- int32_t length = ::strlen(result)
    let length := toInt32 (strlen result)
    -- char* current = result + length - 1
    let (buffer, length) := consoleReadUtf8Loop (length - 1 + 1).toNat true result length
    { value := length, utf8 := buffer, stdin := rest }

/-- The end of a line: `crs` carriage returns, then a line feed when `lf` holds. -/
def lineEnd (crs : Nat) (lf : Bool) : List Nat :=
  List.replicate crs 13 ++ if lf then [10] else []

/-- A state with two threads: thread 1 has registered destructor 1 on parameter 11
(record at address 100), thread 2 destructor 2 on parameter 22 (record at 200). -/
def Threads.twoThreads : Threads :=
  { terminationKeyCreated := true,
    heap := fun a =>
      if a = 100 then some ⟨0, 1, 11⟩ else if a = 200 then some ⟨0, 2, 22⟩ else none,
    slot := fun u => if u = 1 then 100 else if u = 2 then 200 else 0,
    trace := [] }

/-- The number of `Konan_notify_memory_grow()` calls in a trace. -/
def wasm.notifications : List wasm.MemoryEvent → Nat
  | [] => 0
  | wasm.MemoryEvent.notifyMemoryGrow _ :: es => wasm.notifications es + 1
  | wasm.MemoryEvent.memoryGrow _ _ :: es => wasm.notifications es

/-! ## String and byte operations -/

/-- The value of a byte read through a `char*`, with `char` signed. -/
def toChar (b : Nat) : Int :=
  if b % 256 < 128 then ((b % 256 : Nat) : Int) else ((b % 256 : Nat) : Int) - 256

/-- The `memcmp` of Porting.cpp (`KONAN_WASM`). `s1` and `s2` are the bytes that may be
read from the two pointers on; the loop `for (long i = 0; i != n; ++i)` is run by
stepping both pointers. A read past the end of either sequence is a fault. -/
def wasm.memcmp : List Nat → List Nat → Nat → Except Fault Int
  | _, _, 0 => .ok 0
  | a :: s1, b :: s2, n + 1 =>
    -- if (s1[i] != s2[i]) return s1[i] - s2[i]
    if toChar a ≠ toChar b then .ok (toChar a - toChar b) else wasm.memcmp s1 s2 n
  | _, _, _ + 1 => .error Fault.invalidPointer

/-- The loop of the fallback `konan::memmem` (`KONAN_NO_MEMMEM`), from index `i` on.
`big` and `little` are the bytes readable from the two pointers, `bigLen` and
`littleLen` the lengths passed, `sizeBits` the width of `size_t`. The result `some i`
is the pointer `big + i`, `none` the null pointer. -/
def memmemLoop (sizeBits : Nat) (big : List Nat) (bigLen : Nat) (little : List Nat)
    (littleLen : Nat) : Nat → Nat → Except Fault (Option Nat)
  | 0, _ => .error Fault.outOfFuel
  | fuel + 1, i =>
    -- i + littleLen <= bigLen, in size_t
    if (i + littleLen) % 2 ^ sizeBits ≤ bigLen then
      -- void* pos = ((char*)big) + i; if (::memcmp(little, pos, littleLen) == 0) return pos
      match wasm.memcmp little (big.drop i) littleLen with
      | .error e => .error e
      | .ok c =>
        if c = 0 then .ok (some i)
        else memmemLoop sizeBits big bigLen little littleLen fuel ((i + 1) % 2 ^ sizeBits)
    else
      -- return nullptr
      .ok none

/-- The fallback `konan::memmem(big, bigLen, little, littleLen)`. -/
def memmem (sizeBits fuel : Nat) (big : List Nat) (bigLen : Nat) (little : List Nat)
    (littleLen : Nat) : Except Fault (Option Nat) :=
  memmemLoop sizeBits big bigLen little littleLen fuel 0

/-- The sequence `little` occurs in `big` at index `i`. -/
def occursAt (big little : List Nat) (i : Nat) : Prop :=
  i + little.length ≤ big.length ∧ (big.drop i).take little.length = little

/-- The table `primes` of the next-prime stub. -/
def primes : List Nat :=
  [11, 101, 1009, 10007, 100003, 1000003, 10000019, 100000007, 1000000007]

/-- The loop of the next-prime stub over the rest of the table: `prime` is the
variable of that name, `n` the argument. -/
def nextPrimeLoop : List Nat → Nat → Nat → Nat
  | [], prime, _ => prime
  | p :: ps, _, n =>
    -- prime = primes[i]; if (prime >= n) break
    if p ≥ n then p else nextPrimeLoop ps p n

/-- The stub `int _ZNSt3__212__next_primeEj(unsigned long n)`. -/
def _ZNSt3__212__next_primeEj (n : Nat) : Except Fault Int :=
  -- int table_length = sizeof(primes)/sizeof(unsigned long)
  let table_length := primes.length
  -- if (n > primes[table_length - 1]) konan::abort()
  if n > primes.getD (table_length - 1) 0 then .error Fault.aborted else
  -- unsigned long prime = primes[0]
  let prime := primes.getD 0 0
  -- return prime, converted to int
  .ok (toInt32 (nextPrimeLoop primes prime n))

/-- The bytes of the linear memory of the `KONAN_WASM` build: `size` addressable bytes. -/
structure wasm.LinearMemory where
  size : Nat
  byte : Nat → Nat

/-- A one-byte load; outside the memory it is a fault. -/
def wasm.load (m : wasm.LinearMemory) (address : Nat) : Except Fault Nat :=
  if address < m.size then .ok (m.byte address) else .error Fault.invalidPointer

/-- A one-byte store; outside the memory it is a fault. -/
def wasm.store (m : wasm.LinearMemory) (address value : Nat) : Except Fault wasm.LinearMemory :=
  if address < m.size then .ok { m with byte := Function.update m.byte address value }
  else .error Fault.invalidPointer

/-- The loop of `memcpy`: the first argument is `n - i`, the iterations left. -/
def wasm.memcpyLoop (dst src : Nat) : Nat → Nat → wasm.LinearMemory → Except Fault wasm.LinearMemory
  | 0, _, m => .ok m
  | k + 1, i, m =>
    -- *((char*)dst + i) = *((char*)src + i)
    match wasm.load m (src + i) with
    | .error e => .error e
    | .ok b =>
      match wasm.store m (dst + i) b with
      | .error e => .error e
      | .ok m => wasm.memcpyLoop dst src k (i + 1) m

/-- The `memcpy` of Porting.cpp (`KONAN_WASM`): the pointer returned and the memory. -/
def wasm.memcpy (dst src n : Nat) (m : wasm.LinearMemory) :
    Except Fault (Nat × wasm.LinearMemory) :=
  match wasm.memcpyLoop dst src n 0 m with
  | .error e => .error e
  | .ok m => .ok (dst, m)

/-- The backward loop of `memmove`, `for (long i = len; i != 0; --i)`: the argument is
`i`, as the 32-bit pattern of the counter. -/
def wasm.memmoveLoop (dst src : Nat) : Nat → wasm.LinearMemory → Except Fault wasm.LinearMemory
  | 0, m => .ok m
  | i + 1, m =>
    -- *((char*)dst + i - 1) = *((char*)src + i - 1)
    match wasm.load m (src + (i + 1) - 1) with
    | .error e => .error e
    | .ok b =>
      match wasm.store m (dst + (i + 1) - 1) b with
      | .error e => .error e
      | .ok m => wasm.memmoveLoop dst src i m

/-- The `memmove` of Porting.cpp (`KONAN_WASM`): the pointer returned and the memory. -/
def wasm.memmove (dst src len : Nat) (m : wasm.LinearMemory) :
    Except Fault (Nat × wasm.LinearMemory) :=
  if src < dst then
    match wasm.memmoveLoop dst src len m with
    | .error e => .error e
    | .ok m => .ok (dst, m)
  else
    match wasm.memcpy dst src len m with
    | .error e => .error e
    | .ok (_, m) => .ok (dst, m)

/-- The loop of the `strnlen` of Porting.cpp (`KONAN_WASM`), `for (long i = 0;
i <= maxlen; ++i)`: the first numeric argument is `maxlen + 1 - i`, the iterations
left. `s` gives the byte at each index from the pointer on; the list collects the
indices read. -/
def wasm.strnlenLoop (s : Nat → Nat) (maxlen : Nat) : Nat → Nat → List Nat → Nat × List Nat
  | 0, _, reads => (maxlen, reads)
  | k + 1, i, reads =>
    -- if (s[i] == 0) return i
    if s i = 0 then (i, reads ++ [i]) else wasm.strnlenLoop s maxlen k (i + 1) (reads ++ [i])

/-- The `strnlen` of Porting.cpp (`KONAN_WASM`): the value returned and the indices read. -/
def wasm.strnlen (s : Nat → Nat) (maxlen : Nat) : Nat × List Nat :=
  wasm.strnlenLoop s maxlen (maxlen + 1) 0 []

end konan

/-! # Theorems -/

namespace konan

/-! ## The destructor chain -/

theorem Chain.update_of_not_mem {heap : Nat → Option DestructorRecord} {a : Nat}
    (v : Option DestructorRecord) :
    ∀ {l : List Registration} {head : Nat}, Chain heap head l →
      a ∉ l.map Registration.address → Chain (Function.update heap a v) head l
  | [], _, h, _ => h
  | r :: rs, head, h, hn => by
    obtain ⟨h1, h2, next, h3, h4⟩ := h
    simp only [List.map_cons, List.mem_cons, not_or] at hn
    refine ⟨h1, h2, next, ?_, Chain.update_of_not_mem v h4 hn.2⟩
    have hne : head ≠ a := by rw [h1]; exact fun e => hn.1 e.symm
    rw [Function.update_noteq hne]; exact h3

theorem drainEvents_cons (r : Registration) (rs : List Registration) :
    drainEvents (r :: rs) =
      Event.call r.destructor r.destructorParameter :: Event.free r.address :: drainEvents rs :=
  rfl

theorem drainEvents_append (l₁ l₂ : List Registration) :
    drainEvents (l₁ ++ l₂) = drainEvents l₁ ++ drainEvents l₂ := by
  induction l₁ with
  | nil => rfl
  | cons r rs ih => simp [drainEvents_cons, ih]

theorem calls_append (l₁ l₂ : List Event) : calls (l₁ ++ l₂) = calls l₁ ++ calls l₂ := by
  induction l₁ with
  | nil => rfl
  | cons e es ih => cases e <;> simp [calls, ih]

theorem frees_append (l₁ l₂ : List Event) : frees (l₁ ++ l₂) = frees l₁ ++ frees l₂ := by
  induction l₁ with
  | nil => rfl
  | cons e es ih => cases e <;> simp [frees, ih]

theorem calls_drainEvents (l : List Registration) :
    calls (drainEvents l) = l.map fun r => (r.destructor, r.destructorParameter) := by
  induction l with
  | nil => rfl
  | cons r rs ih => simp [drainEvents_cons, calls, ih]

theorem frees_drainEvents (l : List Registration) :
    frees (drainEvents l) = l.map Registration.address := by
  induction l with
  | nil => rfl
  | cons r rs ih => simp [drainEvents_cons, frees, ih]

theorem freeAll_of_not_mem {a : Nat} :
    ∀ (l : List Registration) (heap : Nat → Option DestructorRecord),
      a ∉ l.map Registration.address → freeAll l heap a = heap a
  | [], _, _ => rfl
  | r :: rs, heap, hn => by
    simp only [List.map_cons, List.mem_cons, not_or] at hn
    show freeAll rs (Function.update heap r.address none) a = heap a
    rw [freeAll_of_not_mem rs _ hn.2, Function.update_noteq hn.1]

theorem freeAll_of_mem {a : Nat} :
    ∀ (l : List Registration) (heap : Nat → Option DestructorRecord),
      a ∈ l.map Registration.address → freeAll l heap a = none
  | [], _, hm => by simp at hm
  | r :: rs, heap, hm => by
    show freeAll rs (Function.update heap r.address none) a = none
    by_cases hin : a ∈ rs.map Registration.address
    · exact freeAll_of_mem rs _ hin
    · rw [freeAll_of_not_mem rs _ hin]
      simp only [List.map_cons, List.mem_cons] at hm
      rcases hm with hm | hm
      · rw [hm, Function.update_same]
      · exact absurd hm hin

/-- Draining a well-formed chain of `l.length` records with more fuel than records
returns, having called every destructor and released every record, front to back. -/
theorem onThreadExitCallbackLoop_chain :
    ∀ (l : List Registration) (fuel head : Nat) (s : Threads),
      Chain s.heap head l → (l.map Registration.address).Nodup → l.length < fuel →
      onThreadExitCallbackLoop fuel head s =
        .ok { s with heap := freeAll l s.heap, trace := s.trace ++ drainEvents l }
  | [], fuel, head, s, hc, _, hf => by
    obtain ⟨fuel, rfl⟩ : ∃ k, fuel = k + 1 := ⟨fuel - 1, by simp at hf; omega⟩
    have h0 : head = 0 := hc
    simp [onThreadExitCallbackLoop, h0, freeAll, drainEvents]
  | r :: rs, fuel, head, s, hc, hnd, hf => by
    obtain ⟨fuel, rfl⟩ : ∃ k, fuel = k + 1 := ⟨fuel - 1, by simp at hf; omega⟩
    obtain ⟨h1, h2, next, h3, h4⟩ := hc
    simp only [List.map_cons, List.nodup_cons] at hnd
    simp only [List.length_cons, Nat.add_lt_add_iff_right] at hf
    have hc' : Chain (Function.update s.heap head none) next rs :=
      Chain.update_of_not_mem none h4 (by rw [h1]; exact hnd.1)
    simp only [onThreadExitCallbackLoop, if_neg h2, h3]
    rw [onThreadExitCallbackLoop_chain rs fuel next _ hc' hnd.2 hf]
    simp [freeAll, drainEvents_cons, h1]

theorem onThreadExit_ok (t a d p : Nat) (s : Threads) (ha : a ≠ 0) :
    onThreadExit t a d p s =
      .ok { terminationKeyCreated := true,
            heap := Function.update s.heap a (some ⟨s.slot t, d, p⟩),
            slot := Function.update s.slot t a,
            trace := s.trace } := by
  simp [onThreadExit, ha]

/-- Registering `regs` on top of an existing chain `l` succeeds and yields the chain
`regs.reverse ++ l`; the trace, the other threads and the other addresses are untouched. -/
theorem registerAll_chain (t : Nat) :
    ∀ (regs l : List Registration) (s : Threads),
      Chain s.heap (s.slot t) l → (∀ r ∈ regs, r.address ≠ 0) →
      ((regs ++ l).map Registration.address).Nodup →
      ∃ s₁, registerAll t regs s = .ok s₁ ∧ Chain s₁.heap (s₁.slot t) (regs.reverse ++ l) ∧
        s₁.trace = s.trace ∧ (∀ a, a ∉ regs.map Registration.address → s₁.heap a = s.heap a) ∧
        (∀ u, u ≠ t → s₁.slot u = s.slot u)
  | [], l, s, hc, _, _ => ⟨s, rfl, by simpa using hc, rfl, fun _ _ => rfl, fun _ _ => rfl⟩
  | r :: rs, l, s, hc, hz, hnd => by
    have ha : r.address ≠ 0 := hz r (List.mem_cons_self _ _)
    simp only [List.cons_append, List.map_cons, List.nodup_cons] at hnd
    have hrl : r.address ∉ l.map Registration.address := fun h =>
      hnd.1 (by simp only [List.map_append, List.mem_append]; exact Or.inr h)
    have hrs : r.address ∉ rs.map Registration.address := fun h =>
      hnd.1 (by simp only [List.map_append, List.mem_append]; exact Or.inl h)
    let s' : Threads :=
      { terminationKeyCreated := true,
        heap := Function.update s.heap r.address (some ⟨s.slot t, r.destructor, r.destructorParameter⟩),
        slot := Function.update s.slot t r.address,
        trace := s.trace }
    have hc' : Chain s'.heap (s'.slot t) (r :: l) := by
      have hs : s'.slot t = r.address := Function.update_same _ _ _
      rw [hs]
      exact ⟨rfl, ha, s.slot t, Function.update_same _ _ _, Chain.update_of_not_mem _ hc hrl⟩
    have hnd' : ((rs ++ r :: l).map Registration.address).Nodup := by
      have := hnd.2
      simp only [List.map_append, List.map_cons] at this ⊢
      rw [List.nodup_append] at this ⊢
      refine ⟨this.1, List.nodup_cons.mpr ⟨hrl, this.2.1⟩, ?_⟩
      intro a h1 h2
      rcases List.mem_cons.mp h2 with h | h
      · exact hrs (h ▸ h1)
      · exact this.2.2 h1 h
    obtain ⟨s₁, e, c, tr, hp, sl⟩ :=
      registerAll_chain t rs (r :: l) s' hc' (fun x hx => hz x (List.mem_cons_of_mem _ hx)) hnd'
    refine ⟨s₁, ?_, by simpa using c, tr, ?_,
      fun u hu => (sl u hu).trans (Function.update_noteq hu _ _)⟩
    · simp only [registerAll, onThreadExit_ok t _ _ _ s ha]; exact e
    · intro a hna
      simp only [List.map_cons, List.mem_cons, not_or] at hna
      rw [hp a hna.2]; exact Function.update_noteq hna.1 _ _

/-- The callback on a well-formed chain: the loop result with the slot of `t` cleared. -/
theorem onThreadExitCallback_chain (l : List Registration) (fuel t : Nat) (s : Threads)
    (hc : Chain s.heap (s.slot t) l) (hnd : (l.map Registration.address).Nodup)
    (hf : l.length < fuel) :
    onThreadExitCallback fuel t (s.slot t) s =
      .ok { s with heap := freeAll l s.heap, slot := Function.update s.slot t 0,
                   trace := s.trace ++ drainEvents l } := by
  simp only [onThreadExitCallback, onThreadExitCallbackLoop_chain l fuel (s.slot t) s hc hnd hf]

/-- C1: on one thread, starting from an empty slot, after the registrations
`onThreadExit(d_1,p_1), ..., onThreadExit(d_N,p_N)` (calloc returning non-null, pairwise
distinct addresses) all return, and `onThreadExitCallback` run on the slot value returns
for every fuel above `N` and has added to the trace exactly the destructor calls
`d_N(p_N), ..., d_1(p_1)`, in that order. -/
theorem onThreadExitCallback_lifo (t : Nat) (regs : List Registration) (s : Threads)
    (hslot : s.slot t = 0) (hnz : ∀ r ∈ regs, r.address ≠ 0)
    (hfresh : (regs.map Registration.address).Nodup) :
    ∃ s₁, registerAll t regs s = .ok s₁ ∧
      ∀ fuel, regs.length < fuel →
        ∃ s₂, onThreadExitCallback fuel t (s₁.slot t) s₁ = .ok s₂ ∧
          calls s₂.trace =
            calls s.trace ++ regs.reverse.map fun r => (r.destructor, r.destructorParameter) := by
  obtain ⟨s₁, e, c, tr, -, -⟩ :=
    registerAll_chain t regs [] s (by rw [hslot]; rfl) hnz (by simpa using hfresh)
  refine ⟨s₁, e, fun fuel hf => ?_⟩
  simp only [List.append_nil] at c
  have hl := onThreadExitCallback_chain regs.reverse fuel t s₁ c
    (by rw [List.map_reverse]; exact List.nodup_reverse.mpr hfresh) (by simpa using hf)
  refine ⟨_, hl, ?_⟩
  simp only [calls_append, calls_drainEvents, tr]

/-- Instance of C1 with three registrations on thread 0 of the empty state. -/
theorem onThreadExitCallback_lifo_witness :
    ∃ s₁, registerAll 0 [⟨100, 1, 11⟩, ⟨200, 2, 22⟩, ⟨300, 3, 33⟩] Threads.empty = .ok s₁ ∧
      ∀ fuel, 3 < fuel →
        ∃ s₂, onThreadExitCallback fuel 0 (s₁.slot 0) s₁ = .ok s₂ ∧
          calls s₂.trace = [(3, 33), (2, 22), (1, 11)] :=
  onThreadExitCallback_lifo 0 [⟨100, 1, 11⟩, ⟨200, 2, 22⟩, ⟨300, 3, 33⟩] Threads.empty rfl
    (by decide) (by decide)

/-- C2: after the registrations of `regs` on thread `t` (empty slot before, calloc
returning non-null, pairwise distinct addresses), `onThreadExitCallback` returns for every
fuel above the number of records; afterwards the slot of `t` is `nullptr`, no record of the
chain is allocated, the rest of the heap is as before the registrations, and the events
added are, for each record from newest to oldest, its destructor call followed by its
`free`: every record is released exactly once, right after its own destructor ran. -/
theorem onThreadExitCallback_releases (t : Nat) (regs : List Registration) (s : Threads)
    (hslot : s.slot t = 0) (hnz : ∀ r ∈ regs, r.address ≠ 0)
    (hfresh : (regs.map Registration.address).Nodup) :
    ∃ s₁, registerAll t regs s = .ok s₁ ∧
      ∀ fuel, regs.length < fuel →
        ∃ s₂, onThreadExitCallback fuel t (s₁.slot t) s₁ = .ok s₂ ∧
          s₂.slot t = 0 ∧
          (∀ r ∈ regs, s₂.heap r.address = none) ∧
          (∀ a, a ∉ regs.map Registration.address → s₂.heap a = s.heap a) ∧
          s₂.trace = s.trace ++ drainEvents regs.reverse ∧
          (∀ r ∈ regs, (frees (drainEvents regs.reverse)).count r.address = 1) := by
  obtain ⟨s₁, e, c, tr, hp, -⟩ :=
    registerAll_chain t regs [] s (by rw [hslot]; rfl) hnz (by simpa using hfresh)
  refine ⟨s₁, e, fun fuel hf => ?_⟩
  simp only [List.append_nil] at c
  have hnd : (regs.reverse.map Registration.address).Nodup := by
    rw [List.map_reverse]; exact List.nodup_reverse.mpr hfresh
  have hl := onThreadExitCallback_chain regs.reverse fuel t s₁ c hnd (by simpa using hf)
  refine ⟨_, hl, Function.update_same _ _ _, ?_, ?_, ?_, ?_⟩
  · intro r hr
    exact freeAll_of_mem _ _ (List.mem_map_of_mem _ (List.mem_reverse.mpr hr))
  · intro a ha
    have ha' : a ∉ regs.reverse.map Registration.address := by
      rw [List.map_reverse, List.mem_reverse]; exact ha
    show freeAll regs.reverse s₁.heap a = s.heap a
    rw [freeAll_of_not_mem _ _ ha', hp a ha]
  · show s₁.trace ++ _ = _
    rw [tr]
  · intro r hr
    rw [frees_drainEvents]
    exact List.count_eq_one_of_mem hnd (List.mem_map_of_mem _ (List.mem_reverse.mpr hr))

/-- Instance of C2 with two registrations on thread 7 of the empty state. -/
theorem onThreadExitCallback_releases_witness :
    ∃ s₁, registerAll 7 [⟨64, 1, 11⟩, ⟨32, 2, 22⟩] Threads.empty = .ok s₁ ∧
      ∀ fuel, 2 < fuel →
        ∃ s₂, onThreadExitCallback fuel 7 (s₁.slot 7) s₁ = .ok s₂ ∧
          s₂.slot 7 = 0 ∧
          (∀ r ∈ [(⟨64, 1, 11⟩ : Registration), ⟨32, 2, 22⟩], s₂.heap r.address = none) ∧
          (∀ a, a ∉ [64, 32] → s₂.heap a = none) ∧
          s₂.trace = [Event.call 2 22, Event.free 32, Event.call 1 11, Event.free 64] ∧
          (∀ r ∈ [(⟨64, 1, 11⟩ : Registration), ⟨32, 2, 22⟩],
            (frees [Event.call 2 22, Event.free 32, Event.call 1 11, Event.free 64]).count
              r.address = 1) :=
  onThreadExitCallback_releases 7 [⟨64, 1, 11⟩, ⟨32, 2, 22⟩] Threads.empty rfl
    (by decide) (by decide)

/-! ## Machine integers -/

theorem toUInt32_natCast (n : Nat) : toUInt32 (n : Int) = n % 2 ^ 32 := by
  unfold toUInt32
  omega

theorem toInt32_of_lt {n : Nat} (h : n < 2 ^ 31) : toInt32 n = n := by
  unfold toInt32
  have h1 : n % 2 ^ 32 = n := Nat.mod_eq_of_lt (by omega)
  rw [h1, if_pos h]

/-! ## The growth shim, paged strategy -/

/-- C3: in the paged strategy `moreCore(delta)` with `delta < 0` returns `MFAIL`, the
all-ones address, and leaves the memory state as it was: same size in pages, no call of
the grow primitive and no notification added to the trace. -/
theorem wasm_moreCore_negative (delta : Int) (m : wasm.Memory) (h : delta < 0) :
    (wasm.moreCore delta m).1 = wasm.MFAIL ∧ wasm.MFAIL = 2 ^ 32 - 1 ∧
      (wasm.moreCore delta m).2 = m ∧
      wasm.memorySize (wasm.moreCore delta m).2 = wasm.memorySize m ∧
      (wasm.moreCore delta m).2.trace = m.trace := by
  have h1 : ¬ delta > 0 := by omega
  simp [wasm.moreCore, h1, h, wasm.MFAIL]

/-- Instance of C3: `moreCore(-65536)` on a memory of 3 pages. -/
theorem wasm_moreCore_negative_witness :
    (wasm.moreCore (-65536) ⟨3, 10, []⟩).1 = wasm.MFAIL ∧ wasm.MFAIL = 2 ^ 32 - 1 ∧
      (wasm.moreCore (-65536) ⟨3, 10, []⟩).2 = ⟨3, 10, []⟩ ∧
      wasm.memorySize (wasm.moreCore (-65536) ⟨3, 10, []⟩).2 = wasm.memorySize ⟨3, 10, []⟩ ∧
      (wasm.moreCore (-65536) ⟨3, 10, []⟩).2.trace = [] :=
  wasm_moreCore_negative (-65536) ⟨3, 10, []⟩ (by decide)

/-- C4, at a memory of one page that cannot grow: the grow primitive returns `-1`,
`growMemory` passes that on, `moreCore(1)` compares it with `0` and so returns the old
top `65536` instead of `MFAIL`; the size stays at one page, and the notification is sent
all the same. -/
theorem wasm_moreCore_grow_refused :
    wasm.wasmMemoryGrow 1 ⟨1, 1, []⟩ =
        (2 ^ 32 - 1, ⟨1, 1, [wasm.MemoryEvent.memoryGrow 1 (2 ^ 32 - 1)]⟩) ∧
      (wasm.growMemory 1 ⟨1, 1, []⟩).1 = -1 ∧
      wasm.moreCore 1 ⟨1, 1, []⟩ =
        (65536, ⟨1, 1, [wasm.MemoryEvent.memoryGrow 1 (2 ^ 32 - 1),
                        wasm.MemoryEvent.notifyMemoryGrow 1]⟩) ∧
      (wasm.moreCore 1 ⟨1, 1, []⟩).1 ≠ wasm.MFAIL := by
  decide

/-- The test `== 0` at an empty memory that can grow: the grow succeeds and the
primitive returns the old size `0`, which `moreCore(1)` takes for a failure; it returns
`MFAIL` although the memory has grown to one page. A running runtime keeps its own data
in the linear memory, so its memory is never empty. -/
theorem wasm_moreCore_grow_from_empty :
    wasm.wasmMemoryGrow 1 ⟨0, 1, []⟩ = (0, ⟨1, 1, [wasm.MemoryEvent.memoryGrow 1 0]⟩) ∧
      wasm.moreCore 1 ⟨0, 1, []⟩ =
        (wasm.MFAIL, ⟨1, 1, [wasm.MemoryEvent.memoryGrow 1 0,
                             wasm.MemoryEvent.notifyMemoryGrow 1]⟩) ∧
      wasm.inBytes (wasm.memorySize ⟨0, 1, []⟩) = 0 ∧
      (wasm.moreCore 1 ⟨0, 1, []⟩).1 ≠ wasm.inBytes (wasm.memorySize ⟨0, 1, []⟩) := by
  decide

/-- C6: in the paged strategy `moreCore(0)` returns the top of the region, the size in
pages times 65536 as a 32-bit address, and leaves the memory state as it was, so no grow
and no notification happen and a second `moreCore(0)` returns the same address. -/
theorem wasm_moreCore_zero (m : wasm.Memory) :
    wasm.moreCore 0 m = (wasm.memorySize m * 65536 % 2 ^ 32, m) ∧
      (wasm.moreCore 0 m).2.trace = m.trace ∧
      (wasm.moreCore 0 (wasm.moreCore 0 m).2).1 = (wasm.moreCore 0 m).1 := by
  simp [wasm.moreCore, wasm.inBytes, wasm.memorySize, wasm.WASM_PAGESIZE_EXPONENT,
    Nat.shiftLeft_eq]

/-- Below 65536 pages the address `moreCore(0)` returns is the exact product. -/
theorem wasm_moreCore_zero_exact (m : wasm.Memory) (h : m.pages < 65536) :
    (wasm.moreCore 0 m).1 = m.pages * 65536 := by
  simp only [wasm.moreCore, wasm.inBytes, wasm.memorySize, wasm.WASM_PAGESIZE_EXPONENT,
    Nat.shiftLeft_eq, gt_iff_lt, lt_self_iff_false, if_false]
  exact Nat.mod_eq_of_lt (by omega)

/-- Masking with `~WASM_PAGEMASK` clears the low 16 bits of a 32-bit value. -/
theorem and_not_pagemask (x : Nat) (hx : x < 2 ^ 32) :
    x &&& (2 ^ 32 - 1 - 65535) = x / 65536 * 65536 := by
  show x &&& (2 ^ 32 - 1 - (2 ^ 16 - 1)) = x / 2 ^ 16 * 2 ^ 16
  have hm : (2 ^ 32 - 1 - (2 ^ 16 - 1) : Nat) = (2 ^ 16 - 1) <<< 16 := by decide
  have hr : x / 2 ^ 16 * 2 ^ 16 = (x >>> 16) <<< 16 := by
    rw [Nat.shiftLeft_eq, Nat.shiftRight_eq_div_pow]
  rw [hm, hr]
  apply Nat.eq_of_testBit_eq
  intro i
  rw [Nat.testBit_and, Nat.testBit_shiftLeft, Nat.testBit_shiftLeft, Nat.testBit_shiftRight,
    Nat.testBit_two_pow_sub_one]
  by_cases h16 : 16 ≤ i
  · by_cases h32 : i < 32
    · have : i - 16 < 16 := by omega
      simp [h16, this, Nat.add_sub_cancel' h16]
    · have hi : 2 ^ 32 ≤ 2 ^ i := Nat.pow_le_pow_right (by decide) (by omega)
      have : x.testBit i = false := Nat.testBit_lt_two_pow (by omega)
      have h2 : ¬ (i - 16 < 16) := by omega
      simp [h16, h2, Nat.add_sub_cancel' h16, this]
  · simp [h16]

/-- For a non-negative `int32_t` value `pageAlign` rounds up to a multiple of 65536. -/
theorem pageAlign_of_nonneg (value : Int) (h0 : 0 ≤ value) (h1 : value < 2 ^ 31) :
    wasm.pageAlign value = (value.toNat + 65535) / 65536 * 65536 := by
  have hu : toUInt32 value = value.toNat := by
    unfold toUInt32
    omega
  have hx : (value.toNat + 65535) % 2 ^ 32 = value.toNat + 65535 :=
    Nat.mod_eq_of_lt (by omega)
  have hmask : wasm.WASM_PAGEMASK = 65535 := by decide
  unfold wasm.pageAlign
  rw [hu, hmask, hx]
  exact and_not_pagemask (value.toNat + 65535) (by omega)

theorem inPages_pageAlign (value : Int) (h0 : 0 ≤ value) (h1 : value < 2 ^ 31) :
    wasm.inPages (wasm.pageAlign value) = (value.toNat + 65535) / 65536 := by
  rw [pageAlign_of_nonneg value h0 h1]
  unfold wasm.inPages wasm.WASM_PAGESIZE_EXPONENT
  rw [Nat.shiftRight_eq_div_pow]
  omega

theorem inBytes_eq (pageCount : Nat) : wasm.inBytes pageCount = pageCount * 65536 % 2 ^ 32 := by
  unfold wasm.inBytes wasm.WASM_PAGESIZE_EXPONENT
  rw [Nat.shiftLeft_eq]

/-- Whenever the platform refuses the grow, `moreCore(delta)` with `delta > 0` returns
the old top, which is not `MFAIL`, and the size of the memory stays. -/
theorem wasm_moreCore_of_grow_refused (delta : Int) (m : wasm.Memory) (hd : 0 < delta)
    (hr : m.maxPages < m.pages + wasm.inPages (wasm.pageAlign delta)) :
    (wasm.moreCore delta m).1 = wasm.inBytes (wasm.memorySize m) ∧
      (wasm.moreCore delta m).1 ≠ wasm.MFAIL ∧
      (wasm.moreCore delta m).2.pages = m.pages := by
  have hn : ¬ (m.pages + wasm.inPages (wasm.pageAlign delta) ≤ m.maxPages) := by omega
  have hi : toInt32 (2 ^ 32 - 1) ≠ 0 := by decide
  have hv : wasm.moreCore delta m =
      (wasm.inBytes (wasm.memorySize m),
        wasm.Konan_notify_memory_grow
          { m with trace := m.trace ++
              [wasm.MemoryEvent.memoryGrow (wasm.inPages (wasm.pageAlign delta)) (2 ^ 32 - 1)] }) := by
    simp only [wasm.moreCore, wasm.growMemory, wasm.wasmMemoryGrow, if_pos hd, if_neg hn,
      if_neg hi, gt_iff_lt]
  rw [hv]
  refine ⟨rfl, ?_, rfl⟩
  show wasm.inBytes (wasm.memorySize m) ≠ wasm.MFAIL
  rw [inBytes_eq]
  have : wasm.MFAIL = 4294967295 := by decide
  rw [this]
  omega

/-- Whenever the platform grants the grow and the memory was not empty, `moreCore(delta)`
with `delta > 0` returns the old top, and a following `moreCore(0)` returns the old top
plus `delta` rounded up to a multiple of 65536, as a 32-bit address. -/
theorem wasm_moreCore_of_grow_granted (delta : Int) (m : wasm.Memory) (hd : 0 < delta)
    (hd2 : delta < 2 ^ 31) (hp : 0 < m.pages)
    (hg : m.pages + wasm.inPages (wasm.pageAlign delta) ≤ m.maxPages)
    (hmax : m.maxPages ≤ 65536) :
    (wasm.moreCore delta m).1 = m.pages * 65536 ∧
      (wasm.moreCore delta m).2.pages = m.pages + (delta.toNat + 65535) / 65536 ∧
      (wasm.moreCore 0 (wasm.moreCore delta m).2).1 =
        (m.pages * 65536 + (delta.toNat + 65535) / 65536 * 65536) % 2 ^ 32 := by
  have hk := inPages_pageAlign delta (le_of_lt hd) hd2
  have hlt : m.pages < 65536 := by
    have : 0 < (delta.toNat + 65535) / 65536 := by omega
    omega
  have hi : toInt32 m.pages ≠ 0 := by
    rw [toInt32_of_lt (by omega)]
    omega
  have hv : wasm.moreCore delta m =
      (wasm.inBytes (wasm.memorySize m),
        wasm.Konan_notify_memory_grow
          { m with pages := m.pages + wasm.inPages (wasm.pageAlign delta),
                   trace := m.trace ++
              [wasm.MemoryEvent.memoryGrow (wasm.inPages (wasm.pageAlign delta)) m.pages] }) := by
    simp only [wasm.moreCore, wasm.growMemory, wasm.wasmMemoryGrow, if_pos hd, if_pos hg,
      if_neg hi, gt_iff_lt]
  rw [hv]
  refine ⟨?_, ?_, ?_⟩
  · show wasm.inBytes m.pages = m.pages * 65536
    rw [inBytes_eq]
    exact Nat.mod_eq_of_lt (by omega)
  · show m.pages + wasm.inPages (wasm.pageAlign delta) = _
    rw [hk]
  · show (wasm.moreCore 0 _).1 = _
    simp only [wasm.moreCore, wasm.Konan_notify_memory_grow, wasm.memorySize, gt_iff_lt,
      lt_self_iff_false, if_false]
    rw [inBytes_eq, hk, Nat.add_mul]

/-- C5: for every memory state of the running runtime (at least one page, at most the
65536 pages of a 32-bit memory) and every `delta > 0` whose grow the platform grants,
`moreCore(delta)` returns the top of the region before the call, the old page count
times 65536, and the memory has grown; an immediately following `moreCore(0)` returns
that address plus `pageAlign(delta)`, which is `delta` rounded up to a multiple of
65536, as a 32-bit address: the exact sum whenever the grown memory is below 65536
pages. -/
theorem wasm_moreCore_grow_success (delta : Int) (m : wasm.Memory) (hd : 0 < delta)
    (hd2 : delta < 2 ^ 31) (hp : 0 < m.pages)
    (hg : m.pages + wasm.inPages (wasm.pageAlign delta) ≤ m.maxPages)
    (hmax : m.maxPages ≤ 65536) :
    (wasm.moreCore delta m).1 = wasm.inBytes (wasm.memorySize m) ∧
      (wasm.moreCore delta m).1 = m.pages * 65536 ∧
      (wasm.moreCore delta m).1 ≠ wasm.MFAIL ∧
      wasm.memorySize (wasm.moreCore delta m).2 * 65536 =
        m.pages * 65536 + wasm.pageAlign delta ∧
      65536 ∣ wasm.pageAlign delta ∧ delta ≤ (wasm.pageAlign delta : Int) ∧
      (wasm.pageAlign delta : Int) < delta + 65536 ∧
      (wasm.moreCore 0 (wasm.moreCore delta m).2).1 =
        ((wasm.moreCore delta m).1 + wasm.pageAlign delta) % 2 ^ 32 ∧
      (wasm.memorySize (wasm.moreCore delta m).2 < 65536 →
        (wasm.moreCore 0 (wasm.moreCore delta m).2).1 =
          (wasm.moreCore delta m).1 + wasm.pageAlign delta) := by
  obtain ⟨h1, h2, h3⟩ := wasm_moreCore_of_grow_granted delta m hd hd2 hp hg hmax
  have ha := pageAlign_of_nonneg delta (le_of_lt hd) hd2
  have hk := inPages_pageAlign delta (le_of_lt hd) hd2
  have hdn : (delta.toNat : Int) = delta := Int.toNat_of_nonneg (le_of_lt hd)
  have hlt : m.pages < 65536 := by
    have : 0 < (delta.toNat + 65535) / 65536 := by omega
    omega
  have hmf : wasm.MFAIL = 4294967295 := by decide
  have hsz : wasm.memorySize (wasm.moreCore delta m).2 =
      m.pages + (delta.toNat + 65535) / 65536 := h2
  refine ⟨?_, h1, ?_, ?_, ?_, ?_, ?_, ?_, ?_⟩
  · rw [h1, inBytes_eq]
    exact (Nat.mod_eq_of_lt (by show m.pages * 65536 < 2 ^ 32; omega)).symm
  · rw [h1, hmf]
    omega
  · rw [hsz, ha]
    omega
  · rw [ha]
    exact Dvd.intro_left _ rfl
  · rw [ha]
    omega
  · rw [ha]
    omega
  · rw [h3, h1, ha]
  · intro hs
    rw [h3, h1, ha]
    rw [hsz] at hs
    exact Nat.mod_eq_of_lt (by omega)

/-- Instance of C5: `moreCore(1)` on a memory of 1 page that may grow to 2 returns
65536, and the following `moreCore(0)` returns 131072. -/
theorem wasm_moreCore_grow_success_witness :
    (wasm.moreCore 1 ⟨1, 2, []⟩).1 = wasm.inBytes (wasm.memorySize ⟨1, 2, []⟩) ∧
      (wasm.moreCore 1 ⟨1, 2, []⟩).1 = 1 * 65536 ∧
      (wasm.moreCore 1 ⟨1, 2, []⟩).1 ≠ wasm.MFAIL ∧
      wasm.memorySize (wasm.moreCore 1 ⟨1, 2, []⟩).2 * 65536 =
        1 * 65536 + wasm.pageAlign 1 ∧
      65536 ∣ wasm.pageAlign 1 ∧ (1 : Int) ≤ (wasm.pageAlign 1 : Int) ∧
      (wasm.pageAlign 1 : Int) < 1 + 65536 ∧
      (wasm.moreCore 0 (wasm.moreCore 1 ⟨1, 2, []⟩).2).1 =
        ((wasm.moreCore 1 ⟨1, 2, []⟩).1 + wasm.pageAlign 1) % 2 ^ 32 ∧
      (wasm.memorySize (wasm.moreCore 1 ⟨1, 2, []⟩).2 < 65536 →
        (wasm.moreCore 0 (wasm.moreCore 1 ⟨1, 2, []⟩).2).1 =
          (wasm.moreCore 1 ⟨1, 2, []⟩).1 + wasm.pageAlign 1) :=
  wasm_moreCore_grow_success 1 ⟨1, 2, []⟩ (by decide) (by decide) (by decide) (by decide)
    (by decide)

/-! ## The growth shim, process-heap strategy -/

/-- C7 as stated fails: with the break at 131072 and the lowest break at 65536,
`moreCore(-4096)` returns the old break 131072, not the failure value, and the break
moves back to 126976. -/
theorem processHeap_moreCore_negative_shrinks :
    processHeap.moreCore (-4096) ⟨131072, 65536, 262144, 64⟩ =
        (131072, ⟨126976, 65536, 262144, 64⟩) ∧
      ¬ ((processHeap.moreCore (-4096) ⟨131072, 65536, 262144, 64⟩).1 =
            processHeap.sbrkFailed ⟨131072, 65536, 262144, 64⟩ ∧
          (processHeap.moreCore (-4096) ⟨131072, 65536, 262144, 64⟩).2.programBreak =
            131072) := by
  decide

/-- C7 amended: in the process-heap strategy `moreCore(size)` with `size < 0` is
`sbrk(size)` and does not fail because the size is negative. When the system accepts the
lower break (`size`, `d`), the previous break is returned and the break moves back by
`|size|`. When the system refuses the lower break (`size'`, `d'`, the new break below
the lowest one it accepts), the previous break is returned as well and the data segment
is unchanged. -/
theorem processHeap_moreCore_negative (size size' : Int) (d d' : processHeap.DataSegment)
    (h : size < 0) (hd : d.programBreak ≤ d.highest)
    (hacc : (d.lowest : Int) ≤ d.programBreak + size)
    (h' : size' < 0) (hpos : (0 : Int) ≤ d'.programBreak + size')
    (href : (d'.programBreak : Int) + size' < d'.lowest) :
    ((processHeap.moreCore size d).1 = d.programBreak ∧
        ((processHeap.moreCore size d).2.programBreak : Int) = d.programBreak + size ∧
        (processHeap.moreCore size d).2.programBreak < d.programBreak) ∧
      processHeap.moreCore size' d' = (d'.programBreak, d') := by
  constructor
  · have h0 : ¬ size = 0 := by omega
    have hg : ¬ size > 0 := by omega
    have hw : ¬ ((d.programBreak : Int) + size < 0) := by omega
    have hin : (d.lowest : Int) ≤ d.programBreak + size ∧
        (d.programBreak : Int) + size ≤ d.highest := ⟨hacc, by omega⟩
    have hrep : ¬ ((((d.programBreak : Int) + size).toNat : Int) < d.programBreak + size) := by
      omega
    simp only [processHeap.moreCore, processHeap.sbrk, if_neg h0, if_neg hg, if_neg hw,
      if_pos hin, if_neg hrep]
    refine ⟨trivial, ?_, ?_⟩ <;> omega
  · have h0 : ¬ size' = 0 := by omega
    have hg : ¬ size' > 0 := by omega
    have hw : ¬ ((d'.programBreak : Int) + size' < 0) := by omega
    have hin : ¬ ((d'.lowest : Int) ≤ d'.programBreak + size' ∧
        (d'.programBreak : Int) + size' ≤ d'.highest) := fun hc => by omega
    have hrep : ¬ ((d'.programBreak : Int) < d'.programBreak + size') := by omega
    simp only [processHeap.moreCore, processHeap.sbrk, if_neg h0, if_neg hg, if_neg hw,
      if_neg hin, if_neg hrep]

/-- Instance of the amended C7: with the break at 131072 and the lowest break at
65536, a shrink by 4096 bytes that the system accepts and a shrink by 100000 bytes that
it refuses. -/
theorem processHeap_moreCore_negative_witness :
    ((processHeap.moreCore (-4096) ⟨131072, 65536, 262144, 64⟩).1 = 131072 ∧
        ((processHeap.moreCore (-4096) ⟨131072, 65536, 262144, 64⟩).2.programBreak : Int) =
          (131072 : Nat) + (-4096) ∧
        (processHeap.moreCore (-4096) ⟨131072, 65536, 262144, 64⟩).2.programBreak < 131072) ∧
      processHeap.moreCore (-100000) ⟨131072, 65536, 262144, 64⟩ =
        (131072, ⟨131072, 65536, 262144, 64⟩) :=
  processHeap_moreCore_negative (-4096) (-100000) ⟨131072, 65536, 262144, 64⟩
    ⟨131072, 65536, 262144, 64⟩ (by decide) (by decide) (by decide) (by decide) (by decide)
    (by decide)

/-! ## Registration when the allocation fails -/

/-- C8, when `calloc` returns the null pointer: `onThreadExit` does not reach an
`abort()`; it stores through the null pointer, and the model stops there with the
fault of a null dereference, which is not the abort outcome. -/
theorem onThreadExit_calloc_null (t destructor destructorParameter : Nat) (s : Threads) :
    onThreadExit t 0 destructor destructorParameter s = .error Fault.nullDereference ∧
      onThreadExit t 0 destructor destructorParameter s ≠ .error Fault.aborted := by
  simp [onThreadExit]

/-! ## Console output -/

theorem consolePrintf_sizeBytes (uninit : Nat → Nat) (rendered : List Nat) :
    (consolePrintf uninit rendered).sizeBytes = rendered.length % 2 ^ 32 := by
  simp [consolePrintf, vsnprintf_impl, consoleWriteUtf8, toUInt32_natCast]

theorem consolePrintf_utf8 (uninit : Nat → Nat) (rendered : List Nat) :
    (consolePrintf uninit rendered).utf8 =
      rendered.take 1022 ++ [0] ++
        ((List.range 1024).map uninit).drop ((rendered.take 1022).length + 1) := by
  simp [consolePrintf, vsnprintf_impl, consoleWriteUtf8]

/-- The array handed to the sink is the 1024-byte `buffer`. -/
theorem consolePrintf_utf8_length (uninit : Nat → Nat) (rendered : List Nat) :
    (consolePrintf uninit rendered).utf8.length = 1024 := by
  rw [consolePrintf_utf8]
  simp only [List.length_append, List.length_take, List.length_drop, List.length_map,
    List.length_range, List.length_singleton]
  omega

/-- The bytes of the rendered text that `vsnprintf` stored: at most 1022. -/
theorem consolePrintf_stored (uninit : Nat → Nat) (rendered : List Nat) :
    (consolePrintf uninit rendered).utf8.take (min rendered.length 1022) =
      rendered.take 1022 := by
  rw [consolePrintf_utf8, List.append_assoc, List.take_append_eq_append_take]
  simp [List.length_take, Nat.min_comm]

/-- A rendered text of at most 1022 bytes reaches the sink unchanged. -/
theorem consolePrintf_short_text (uninit : Nat → Nat) (rendered : List Nat)
    (h : rendered.length ≤ 1022) :
    (consolePrintf uninit rendered).received = some rendered := by
  have hl := consolePrintf_utf8_length uninit rendered
  have hs := consolePrintf_sizeBytes uninit rendered
  have ht := consolePrintf_stored uninit rendered
  have h1 : rendered.length % 2 ^ 32 = rendered.length := Nat.mod_eq_of_lt (by omega)
  rw [h1] at hs
  rw [Nat.min_eq_left h, List.take_of_length_le h] at ht
  unfold WriteCall.received
  rw [hs, hl, if_pos (by omega), ht]

/-- C9, the example of the claim: the rendered text `42-ok` reaches the sink as it is. -/
theorem consolePrintf_example (uninit : Nat → Nat) :
    (consolePrintf uninit [52, 50, 45, 111, 107]).received = some [52, 50, 45, 111, 107] :=
  consolePrintf_short_text uninit [52, 50, 45, 111, 107] (by decide)

/-- A rendered text of exactly 1023 bytes: the sink receives its first 1022 bytes and
then the terminating NUL. -/
theorem consolePrintf_text_1023 (uninit : Nat → Nat) (rendered : List Nat)
    (h : rendered.length = 1023) :
    (consolePrintf uninit rendered).received = some (rendered.take 1022 ++ [0]) := by
  have hl := consolePrintf_utf8_length uninit rendered
  have hs := consolePrintf_sizeBytes uninit rendered
  have hu := consolePrintf_utf8 uninit rendered
  have h1 : rendered.length % 2 ^ 32 = 1023 := by rw [h]; rfl
  rw [h1] at hs
  have h2 : (rendered.take 1022 ++ [0]).length = 1023 := by
    rw [List.length_append, List.length_take, h]; rfl
  unfold WriteCall.received
  rw [hs, hl, if_pos (by decide), hu, ← h2, List.take_left]

theorem replicate_append_zero_not_prefix (n : Nat) :
    ¬ (List.replicate n 97 ++ [0]) <+: List.replicate (n + 1) 97 := by
  intro hp
  have hm : (0 : Nat) ∈ List.replicate (n + 1) 97 := hp.subset (by simp)
  have := List.eq_of_mem_replicate hm
  omega

/-- C9, at rendered texts that do not fit. For 2000 bytes `a`: the count handed to
`consoleWriteUtf8` is 2000, beyond the 1024 bytes of the buffer and beyond the 1022 bytes
rendered into it, so the sink is not given a prefix of the text. For 1023 bytes `a`: the
count is 1023 and the sink receives 1022 bytes `a` followed by the NUL, which is not a
prefix of the text either. -/
theorem consolePrintf_long_text (uninit : Nat → Nat) :
    (consolePrintf uninit (List.replicate 2000 97)).sizeBytes = 2000 ∧
      (consolePrintf uninit (List.replicate 2000 97)).utf8.length = 1024 ∧
      (consolePrintf uninit (List.replicate 2000 97)).received = none ∧
      (consolePrintf uninit (List.replicate 1023 97)).sizeBytes = 1023 ∧
      (consolePrintf uninit (List.replicate 1023 97)).received =
        some (List.replicate 1022 97 ++ [0]) ∧
      ¬ (List.replicate 1022 97 ++ [0]) <+: List.replicate 1023 97 := by
  have hl2 := consolePrintf_utf8_length uninit (List.replicate 2000 97)
  have hs2 := consolePrintf_sizeBytes uninit (List.replicate 2000 97)
  have hs3 := consolePrintf_sizeBytes uninit (List.replicate 1023 97)
  have hr3 := consolePrintf_text_1023 uninit (List.replicate 1023 97)
    (List.length_replicate _ _)
  rw [List.length_replicate] at hs2 hs3
  rw [List.take_replicate] at hr3
  refine ⟨hs2, hl2, ?_, hs3, hr3, replicate_append_zero_not_prefix 1022⟩
  unfold WriteCall.received
  rw [hs2, hl2, if_neg (by decide)]

/-! ## Console input -/

theorem toInt32_toUInt32_pred (n : Nat) (h1 : 1 ≤ n) (h2 : n ≤ 2 ^ 31) :
    toInt32 (toUInt32 ((n : Int) - 1)) = ((n - 1 : Nat) : Int) := by
  have e : (n : Int) - 1 = ((n - 1 : Nat) : Int) := by omega
  rw [e, toUInt32_natCast, Nat.mod_eq_of_lt (by omega), toInt32_of_lt (by omega)]

theorem lineEnd_succ (crs : Nat) (lf : Bool) : lineEnd (crs + 1) lf = 13 :: lineEnd crs lf := by
  simp [lineEnd, List.replicate_succ]

theorem mem_lineEnd {crs : Nat} {lf : Bool} {b : Nat} (h : b ∈ lineEnd crs lf) :
    b = 10 ∨ b = 13 := by
  unfold lineEnd at h
  rcases List.mem_append.mp h with h | h
  · exact Or.inr (List.eq_of_mem_replicate h)
  · cases lf
    · simp at h
    · simp at h; exact Or.inl h

/-- From the end of a line `fgets` transfers as much as there is room for. -/
theorem fgetsChars_lineEnd (rest : List Nat) (lf : Bool) (heof : lf = false → rest = []) :
    ∀ (crs limit : Nat),
      fgetsChars limit (lineEnd crs lf ++ rest) = (lineEnd crs lf).take limit
  | _, 0 => by simp [fgetsChars]
  | 0, limit + 1 => by
    cases lf with
    | false => rw [heof rfl]; simp [lineEnd, fgetsChars]
    | true => simp [lineEnd, fgetsChars]
  | crs + 1, limit + 1 => by
    rw [lineEnd_succ]
    show fgetsChars (limit + 1) (13 :: (lineEnd crs lf ++ rest)) = _
    simp only [fgetsChars, List.take_succ_cons]
    rw [if_neg (by decide), fgetsChars_lineEnd rest lf heof crs limit]

/-- With room for the content of the line, `fgets` transfers the content and as much
of the end of the line as there is room left for. -/
theorem fgetsChars_line (rest : List Nat) (crs : Nat) (lf : Bool)
    (heof : lf = false → rest = []) :
    ∀ (content : List Nat) (limit : Nat), (∀ b ∈ content, b ≠ 10) → content.length ≤ limit →
      fgetsChars limit (content ++ lineEnd crs lf ++ rest) =
        content ++ (lineEnd crs lf).take (limit - content.length)
  | [], limit, _, _ => by simpa using fgetsChars_lineEnd rest lf heof crs limit
  | c :: cs, 0, _, h => by simp at h
  | c :: cs, limit + 1, hn, h => by
    have hc : c ≠ 10 := hn c (List.mem_cons_self _ _)
    simp only [List.length_cons, Nat.add_le_add_iff_right] at h
    show fgetsChars (limit + 1) (c :: (cs ++ lineEnd crs lf ++ rest)) = _
    simp only [fgetsChars, if_neg hc]
    rw [fgetsChars_line rest crs lf heof cs limit (fun b hb => hn b (List.mem_cons_of_mem _ hb)) h]
    simp

theorem strlen_append_zero :
    ∀ (l tail : List Nat), (∀ b ∈ l, b ≠ 0) → strlen (l ++ 0 :: tail) = l.length
  | [], _, _ => by simp [strlen]
  | c :: cs, tail, hn => by
    have hc : c ≠ 0 := hn c (List.mem_cons_self _ _)
    show strlen (c :: (cs ++ 0 :: tail)) = (c :: cs).length
    simp only [strlen, if_neg hc, List.length_cons]
    rw [strlen_append_zero cs tail (fun b hb => hn b (List.mem_cons_of_mem _ hb))]

theorem consoleReadUtf8Loop_false (k : Nat) (buffer : List Nat) (length : Int) :
    consoleReadUtf8Loop k false buffer length = (buffer, length) := by
  cases k <;> rfl

/-- The loop stops at once on a text that does not end in CR or LF. -/
theorem consoleReadUtf8Loop_stop (content zs : List Nat) (length : Int)
    (h10 : content.getLast? ≠ some 10) (h13 : content.getLast? ≠ some 13) :
    consoleReadUtf8Loop content.length true (content ++ zs) length = (content ++ zs, length) := by
  rcases List.eq_nil_or_concat content with h | ⟨init, b, h⟩
  · subst h; rfl
  · rw [List.concat_eq_append] at h
    subst h
    have hlast : (init ++ [b]).getLast? = some b := by simp
    rw [hlast] at h10 h13
    have h10' : b ≠ 10 := fun e => h10 (by rw [e])
    have h13' : b ≠ 13 := fun e => h13 (by rw [e])
    have hg : (init ++ [b] ++ zs).getD init.length 0 = b := by
      rw [List.append_assoc, List.getD_eq_getElem?_getD,
        List.getElem?_append_right (le_refl _)]
      simp
    rw [List.length_append, List.length_singleton]
    simp only [consoleReadUtf8Loop, hg, h10', h13', or_self, if_false]
    exact consoleReadUtf8Loop_false _ _ _

/-- The loop replaces a trailing run of CR and LF bytes by NULs and counts them off. -/
theorem consoleReadUtf8Loop_trim (content : List Nat)
    (h10 : content.getLast? ≠ some 10) (h13 : content.getLast? ≠ some 13) :
    ∀ (n : Nat) (t zs : List Nat) (length : Int), t.length = n → (∀ b ∈ t, b = 10 ∨ b = 13) →
      consoleReadUtf8Loop (content ++ t).length true (content ++ t ++ zs) length =
        (content ++ List.replicate t.length 0 ++ zs, length - t.length)
  | 0, t, zs, length, hl, _ => by
    have ht : t = [] := List.length_eq_zero.mp hl
    subst ht
    simpa using consoleReadUtf8Loop_stop content zs length h10 h13
  | n + 1, t, zs, length, hl, ht => by
    rcases List.eq_nil_or_concat t with h | ⟨t', b, h⟩
    · subst h; simp at hl
    · rw [List.concat_eq_append] at h
      subst h
      have hb : b = 10 ∨ b = 13 := ht b (by simp)
      have hl' : t'.length = n := by simpa using hl
      have hg : (content ++ (t' ++ [b]) ++ zs).getD (content ++ t').length 0 = b := by
        have e : content ++ (t' ++ [b]) ++ zs = (content ++ t') ++ b :: zs := by simp
        rw [e, List.getD_eq_getElem?_getD, List.getElem?_append_right (le_refl _)]
        simp
      have hs : (content ++ (t' ++ [b]) ++ zs).set (content ++ t').length 0 =
          content ++ t' ++ 0 :: zs := by
        have e : content ++ (t' ++ [b]) ++ zs = (content ++ t') ++ b :: zs := by simp
        rw [e, List.set_append_right _ _ (le_refl _)]
        simp
      have hk : (content ++ (t' ++ [b])).length = (content ++ t').length + 1 := by
        simp [Nat.add_assoc]
      rw [hk]
      simp only [consoleReadUtf8Loop, hg, hb, if_true, hs]
      rw [consoleReadUtf8Loop_trim content h10 h13 n t' (0 :: zs) (length - 1) hl'
        (fun x hx => ht x (by simp [hx]))]
      have e1 : List.replicate (t' ++ [b]).length 0 = List.replicate t'.length 0 ++ [(0 : Nat)] := by
        rw [List.length_append, List.length_singleton, List.replicate_succ']
      rw [e1]
      refine Prod.ext (by simp) ?_
      simp only [List.length_append, List.length_singleton]
      push_cast
      omega

/-- The whole effect of `consoleReadUtf8` when `fgets` transfers `content` followed by
a run `t` of CR and LF bytes, where `content` has no NUL byte and does not end in CR or
LF: the run is overwritten by NULs and the length of `content` is returned. -/
theorem consoleReadUtf8_of_chars (utf8 input content t : List Nat) (maxSizeBytes : Nat)
    (hmin : 2 ≤ maxSizeBytes) (hmax : maxSizeBytes ≤ 2 ^ 31)
    (hchars : fgetsChars (maxSizeBytes - 2) input = content ++ t)
    (ht : ∀ b ∈ t, b = 10 ∨ b = 13) (hnul : ∀ b ∈ content, b ≠ 0)
    (h10 : content.getLast? ≠ some 10) (h13 : content.getLast? ≠ some 13)
    (hne : content ++ t ≠ [] ∨ maxSizeBytes = 2) :
    consoleReadUtf8 utf8 maxSizeBytes input =
      { value := content.length,
        utf8 := content ++ List.replicate t.length 0 ++
          0 :: utf8.drop ((content ++ t).length + 1),
        stdin := input.drop (content ++ t).length } := by
  have hn := toInt32_toUInt32_pred maxSizeBytes (by omega) hmax
  have hlen : (content ++ t).length ≤ maxSizeBytes - 2 := by
    have hb : ∀ (limit : Nat) (l : List Nat), (fgetsChars limit l).length ≤ limit := by
      intro limit
      induction limit with
      | zero => intro l; simp [fgetsChars]
      | succ k ih =>
        intro l
        cases l with
        | nil => simp [fgetsChars]
        | cons c cs =>
          by_cases hc : c = 10
          · simp [fgetsChars, hc]
          · simp only [fgetsChars, if_neg hc, List.length_cons]
            exact Nat.succ_le_succ (ih cs)
    rw [← hchars]; exact hb _ _
  have hf : fgets utf8 ((maxSizeBytes - 1 : Nat) : Int) input =
      (some (content ++ t ++ 0 :: utf8.drop ((content ++ t).length + 1)),
        input.drop (content ++ t).length) := by
    have h0 : ¬ (((maxSizeBytes - 1 : Nat) : Int) ≤ 0) := by omega
    have h2 : ((maxSizeBytes - 1 : Nat) : Int).toNat - 1 = maxSizeBytes - 2 := by omega
    unfold fgets
    rw [if_neg h0]
    simp only [h2, hchars]
    have hcond : ¬ (content ++ t = [] ∧ ((maxSizeBytes - 1 : Nat) : Int) ≠ 1) := by
      rintro ⟨h1, h3⟩
      rcases hne with h | h
      · exact h h1
      · exact h3 (by omega)
    rw [if_neg hcond]
    simp
  have hz : ∀ b ∈ content ++ t, b ≠ 0 := by
    intro b hb
    rcases List.mem_append.mp hb with h | h
    · exact hnul b h
    · rcases ht b h with h | h <;> omega
  have hs : strlen (content ++ t ++ 0 :: utf8.drop ((content ++ t).length + 1)) =
      (content ++ t).length := strlen_append_zero _ _ hz
  have hi : toInt32 (content ++ t).length = (content ++ t).length := toInt32_of_lt (by omega)
  have hk : (((content ++ t).length : Int) - 1 + 1).toNat = (content ++ t).length := by omega
  have htrim := consoleReadUtf8Loop_trim content h10 h13 t.length t
    (0 :: utf8.drop ((content ++ t).length + 1)) ((content ++ t).length : Int) rfl ht
  unfold consoleReadUtf8
  rw [hn, hf]
  simp only [hs, hi, hk, htrim]
  congr 1
  simp

/-- C10 as stated fails on a line whose content holds a NUL byte: for the input
`a`, NUL, `b`, LF and `maxSizeBytes = 10` the line without its trailing LF has 3 bytes,
but `consoleReadUtf8` returns 1, the length up to the first NUL, and trims nothing. -/
theorem consoleReadUtf8_nul_in_line :
    consoleReadUtf8 (List.replicate 10 255) 10 ([97, 0, 98] ++ lineEnd 0 true ++ []) =
        { value := 1, utf8 := [97, 0, 98, 10, 0, 255, 255, 255, 255, 255], stdin := [] } ∧
      ¬ ((consoleReadUtf8 (List.replicate 10 255) 10 ([97, 0, 98] ++ lineEnd 0 true ++ [])).value
            = ([97, 0, 98] : List Nat).length ∧
          (consoleReadUtf8 (List.replicate 10 255) 10
            ([97, 0, 98] ++ lineEnd 0 true ++ [])).utf8.take 3 = [97, 0, 98]) := by
  decide

/-- C10 amended: let the next line of standard input be `content` followed by `crs`
carriage returns and then a line feed or the end of input, where `content` has no NUL
byte, no line feed and no carriage return at its end, the line is not empty, and
`content` leaves two bytes of room in the buffer (`maxSizeBytes <= 2^31`). Then
`consoleReadUtf8` returns the length of `content`, the buffer starts with exactly
`content` followed by a NUL at the returned length (carriage returns inside `content`
are kept), and the input is consumed up to the end of the line or up to
`maxSizeBytes - 2` bytes, whichever comes first. -/
theorem consoleReadUtf8_line (utf8 content rest : List Nat) (crs : Nat) (lf : Bool)
    (maxSizeBytes : Nat)
    (hnul : ∀ b ∈ content, b ≠ 0) (hlf : ∀ b ∈ content, b ≠ 10)
    (hcr : content.getLast? ≠ some 13) (heof : lf = false → rest = [])
    (hne : content ++ lineEnd crs lf ≠ [])
    (hfit : content.length + 2 ≤ maxSizeBytes)
    (hmax : maxSizeBytes ≤ 2 ^ 31) :
    (consoleReadUtf8 utf8 maxSizeBytes (content ++ lineEnd crs lf ++ rest)).value =
        content.length ∧
      (consoleReadUtf8 utf8 maxSizeBytes (content ++ lineEnd crs lf ++ rest)).utf8.take
        content.length = content ∧
      (consoleReadUtf8 utf8 maxSizeBytes (content ++ lineEnd crs lf ++ rest)).utf8[content.length]?
        = some 0 ∧
      strlen (consoleReadUtf8 utf8 maxSizeBytes (content ++ lineEnd crs lf ++ rest)).utf8 =
        content.length ∧
      (consoleReadUtf8 utf8 maxSizeBytes (content ++ lineEnd crs lf ++ rest)).stdin =
        (content ++ lineEnd crs lf ++ rest).drop
          (min (content ++ lineEnd crs lf).length (maxSizeBytes - 2)) := by
  have hchars := fgetsChars_line rest crs lf heof content (maxSizeBytes - 2) hlf (by omega)
  have ht : ∀ b ∈ (lineEnd crs lf).take (maxSizeBytes - 2 - content.length),
      b = 10 ∨ b = 13 := fun b hb => mem_lineEnd (List.mem_of_mem_take hb)
  have h10 : content.getLast? ≠ some 10 := by
    intro h
    exact hlf 10 (List.mem_of_getLast?_eq_some h) rfl
  have hne' : content ++ (lineEnd crs lf).take (maxSizeBytes - 2 - content.length) ≠ [] ∨
      maxSizeBytes = 2 := by
    by_cases h2 : maxSizeBytes = 2
    · exact Or.inr h2
    · refine Or.inl (fun h => ?_)
      obtain ⟨hc, hl⟩ := List.append_eq_nil.mp h
      subst hc
      rcases List.take_eq_nil_iff.mp hl with h | h
      · simp at h; omega
      · exact hne (by simpa using h)
  rw [consoleReadUtf8_of_chars utf8 _ content _ maxSizeBytes (by omega) hmax hchars ht hnul h10
    hcr hne']
  have hlen : (content ++ (lineEnd crs lf).take (maxSizeBytes - 2 - content.length)).length =
      min (content ++ lineEnd crs lf).length (maxSizeBytes - 2) := by
    simp only [List.length_append, List.length_take]
    omega
  generalize (lineEnd crs lf).take (maxSizeBytes - 2 - content.length) = t at *
  have e : content ++ List.replicate t.length 0 ++ 0 :: utf8.drop ((content ++ t).length + 1) =
      content ++ 0 :: (List.replicate t.length 0 ++ utf8.drop ((content ++ t).length + 1)) := by
    have : List.replicate t.length 0 ++ [(0 : Nat)] = 0 :: List.replicate t.length 0 := by
      rw [← List.replicate_succ', List.replicate_succ]
    calc content ++ List.replicate t.length 0 ++ 0 :: utf8.drop ((content ++ t).length + 1)
        = content ++ (List.replicate t.length 0 ++ [0]) ++
          utf8.drop ((content ++ t).length + 1) := by simp
      _ = _ := by rw [this]; simp
  refine ⟨rfl, ?_, ?_, ?_, ?_⟩
  · show List.take content.length (content ++ _ ++ _) = content
    rw [List.append_assoc, List.take_left]
  · show (content ++ _ ++ _)[content.length]? = some 0
    rw [e, List.getElem?_append_right (le_refl _)]
    simp
  · show strlen (content ++ _ ++ _) = content.length
    rw [e]
    exact strlen_append_zero _ _ hnul
  · show List.drop (content ++ t).length _ = _
    rw [hlen]

/-- Instance of the amended C10, the example of the claim: `hello`, CR, LF with
`maxSizeBytes = 10` returns 5 and leaves `hello` followed by a NUL. -/
theorem consoleReadUtf8_line_witness :
    (consoleReadUtf8 (List.replicate 10 255) 10 [104, 101, 108, 108, 111, 13, 10]).value = 5 ∧
      (consoleReadUtf8 (List.replicate 10 255) 10 [104, 101, 108, 108, 111, 13, 10]).utf8.take 5
        = [104, 101, 108, 108, 111] ∧
      (consoleReadUtf8 (List.replicate 10 255) 10 [104, 101, 108, 108, 111, 13, 10]).utf8[5]?
        = some 0 ∧
      strlen (consoleReadUtf8 (List.replicate 10 255) 10
        [104, 101, 108, 108, 111, 13, 10]).utf8 = 5 ∧
      (consoleReadUtf8 (List.replicate 10 255) 10 [104, 101, 108, 108, 111, 13, 10]).stdin
        = [] :=
  consoleReadUtf8_line (List.replicate 10 255) [104, 101, 108, 108, 111] [] 1 true 10
    (by decide) (by decide) (by decide) (by decide) (by decide) (by decide) (by decide)

/-! ## Console input: how much is read -/

theorem fgetsChars_length_le (limit : Nat) :
    ∀ (l : List Nat), (fgetsChars limit l).length ≤ limit := by
  induction limit with
  | zero => intro l; simp [fgetsChars]
  | succ k ih =>
    intro l
    cases l with
    | nil => simp [fgetsChars]
    | cons c cs =>
      by_cases hc : c = 10
      · simp [fgetsChars, hc]
      · simp only [fgetsChars, if_neg hc, List.length_cons]
        exact Nat.succ_le_succ (ih cs)

theorem fgetsChars_length_le_input (limit : Nat) :
    ∀ (l : List Nat), (fgetsChars limit l).length ≤ l.length := by
  induction limit with
  | zero => intro l; simp [fgetsChars]
  | succ k ih =>
    intro l
    cases l with
    | nil => simp [fgetsChars]
    | cons c cs =>
      by_cases hc : c = 10
      · simp [fgetsChars, hc]
      · simp only [fgetsChars, if_neg hc, List.length_cons]
        exact Nat.succ_le_succ (ih cs)

theorem fgetsChars_eq_nil_iff (limit : Nat) (l : List Nat) :
    fgetsChars (limit + 1) l = [] ↔ l = [] := by
  cases l with
  | nil => simp [fgetsChars]
  | cons c cs =>
    by_cases hc : c = 10
    · simp [fgetsChars, hc]
    · simp [fgetsChars, hc]

/-- Without a line feed among the first `limit` bytes `fgets` transfers just these. -/
theorem fgetsChars_no_newline :
    ∀ (pre rest : List Nat), (∀ b ∈ pre, b ≠ 10) →
      fgetsChars pre.length (pre ++ rest) = pre
  | [], rest, _ => by simp [fgetsChars]
  | c :: cs, rest, hn => by
    have hc : c ≠ 10 := hn c (List.mem_cons_self _ _)
    show fgetsChars (cs.length + 1) (c :: (cs ++ rest)) = c :: cs
    simp only [fgetsChars, if_neg hc]
    rw [fgetsChars_no_newline cs rest (fun b hb => hn b (List.mem_cons_of_mem _ hb))]

/-- When the next `maxSizeBytes - 2` bytes of input hold no LF, CR or NUL,
`consoleReadUtf8` consumes exactly these bytes and returns `maxSizeBytes - 2`. -/
theorem consoleReadUtf8_no_newline (utf8 pre rest : List Nat) (maxSizeBytes : Nat)
    (hmin : 2 ≤ maxSizeBytes) (hmax : maxSizeBytes ≤ 2 ^ 31)
    (hlen : pre.length = maxSizeBytes - 2)
    (hpre : ∀ b ∈ pre, b ≠ 10 ∧ b ≠ 13 ∧ b ≠ 0) :
    (consoleReadUtf8 utf8 maxSizeBytes (pre ++ rest)).value = ((maxSizeBytes - 2 : Nat) : Int) ∧
      (consoleReadUtf8 utf8 maxSizeBytes (pre ++ rest)).stdin = rest ∧
      (consoleReadUtf8 utf8 maxSizeBytes (pre ++ rest)).utf8 =
        pre ++ 0 :: utf8.drop (maxSizeBytes - 1) := by
  have hchars : fgetsChars (maxSizeBytes - 2) (pre ++ rest) = pre ++ [] := by
    rw [← hlen, List.append_nil]
    exact fgetsChars_no_newline pre rest (fun b hb => (hpre b hb).1)
  have h10 : pre.getLast? ≠ some 10 := fun h =>
    (hpre 10 (List.mem_of_getLast?_eq_some h)).1 rfl
  have h13 : pre.getLast? ≠ some 13 := fun h =>
    (hpre 13 (List.mem_of_getLast?_eq_some h)).2.1 rfl
  have hne : pre ++ [] ≠ [] ∨ maxSizeBytes = 2 := by
    by_cases h2 : maxSizeBytes = 2
    · exact Or.inr h2
    · refine Or.inl (fun h => ?_)
      have : pre.length = 0 := by simp at h; simp [h]
      omega
  rw [consoleReadUtf8_of_chars utf8 (pre ++ rest) pre [] maxSizeBytes hmin hmax hchars
    (by simp) (fun b hb => (hpre b hb).2.2) h10 h13 hne]
  have e : maxSizeBytes - 2 + 1 = maxSizeBytes - 1 := by omega
  refine ⟨by simp [hlen], by simp, by simp [hlen, e]⟩

/-- C11, at a buffer of 4 bytes and the input `abcdef`: `fgets` is called with
`maxSizeBytes - 1 = 3`, so it transfers 2 bytes; `consoleReadUtf8` consumes `ab` and
returns 2, not the 3 bytes that `maxSizeBytes - 1` would be; the third byte `c` stays
in the input and the last byte of the buffer is not written. -/
theorem consoleReadUtf8_reads_two_less :
    consoleReadUtf8 [255, 255, 255, 255] 4 [97, 98, 99, 100, 101, 102] =
        { value := 2, utf8 := [97, 98, 0, 255], stdin := [99, 100, 101, 102] } ∧
      (consoleReadUtf8 [255, 255, 255, 255] 4 [97, 98, 99, 100, 101, 102]).value ≠ 4 - 1 ∧
      (consoleReadUtf8 [255, 255, 255, 255] 4 [97, 98, 99, 100, 101, 102]).stdin ≠
        [100, 101, 102] := by
  decide

/-! ## Console input: the builds without standard input -/

theorem consoleReadUtf8Loop_value_ge :
    ∀ (k : Nat) (b : Bool) (buffer : List Nat) (length : Int),
      length - k ≤ (consoleReadUtf8Loop k b buffer length).2
  | 0, _, _, _ => by simp [consoleReadUtf8Loop]
  | k + 1, false, _, _ => by
    simp only [consoleReadUtf8Loop]
    push_cast
    omega
  | k + 1, true, buffer, length => by
    simp only [consoleReadUtf8Loop]
    split
    · have := consoleReadUtf8Loop_value_ge k true (buffer.set k 0) (length - 1)
      push_cast
      omega
    · rw [consoleReadUtf8Loop_false]
      push_cast
      omega

theorem strlen_append_zero_le :
    ∀ (l tail : List Nat), strlen (l ++ 0 :: tail) ≤ l.length
  | [], _ => by simp [strlen]
  | c :: cs, tail => by
    show strlen (c :: (cs ++ 0 :: tail)) ≤ (c :: cs).length
    by_cases hc : c = 0
    · simp [strlen, hc]
    · simp only [strlen, if_neg hc, List.length_cons]
      exact Nat.succ_le_succ (strlen_append_zero_le cs tail)

/-- The size handed to `fgets`: not positive for a `maxSizeBytes` of 0, 1 or above
`2^31`, and `maxSizeBytes - 1` otherwise. -/
theorem fgets_size_cases (maxSizeBytes : Nat) (h32 : maxSizeBytes < 2 ^ 32) :
    toInt32 (toUInt32 ((maxSizeBytes : Int) - 1)) ≤ 0 ∨
      (2 ≤ maxSizeBytes ∧ maxSizeBytes ≤ 2 ^ 31 ∧
        toInt32 (toUInt32 ((maxSizeBytes : Int) - 1)) = ((maxSizeBytes - 1 : Nat) : Int)) := by
  rcases Nat.lt_or_ge maxSizeBytes 2 with h | h
  · left
    interval_cases maxSizeBytes <;> decide
  · rcases Nat.lt_or_ge (2 ^ 31) maxSizeBytes with h' | h'
    · left
      have e : (maxSizeBytes : Int) - 1 = ((maxSizeBytes - 1 : Nat) : Int) := by omega
      rw [e, toUInt32_natCast, Nat.mod_eq_of_lt (by omega)]
      unfold toInt32
      rw [Nat.mod_eq_of_lt (by omega), if_neg (by omega)]
      omega
    · exact Or.inr ⟨h, h', toInt32_toUInt32_pred maxSizeBytes (by omega) h'⟩

/-- The two outcomes of `consoleReadUtf8` for a size other than 2: either nothing is
consumed, the buffer is untouched and `-1` is returned, which happens exactly when the
input is at its end or the size handed to `fgets` is not positive; or at least one byte
is consumed and the value returned is not negative. -/
theorem consoleReadUtf8_cases (utf8 stdin : List Nat) (maxSizeBytes : Nat)
    (h32 : maxSizeBytes < 2 ^ 32) (h2 : maxSizeBytes ≠ 2) :
    (consoleReadUtf8 utf8 maxSizeBytes stdin = { value := -1, utf8 := utf8, stdin := stdin } ∧
        (stdin = [] ∨ toInt32 (toUInt32 ((maxSizeBytes : Int) - 1)) ≤ 0)) ∨
      (0 ≤ (consoleReadUtf8 utf8 maxSizeBytes stdin).value ∧
        (consoleReadUtf8 utf8 maxSizeBytes stdin).stdin.length < stdin.length ∧
        stdin ≠ [] ∧ 0 < toInt32 (toUInt32 ((maxSizeBytes : Int) - 1))) := by
  rcases fgets_size_cases maxSizeBytes h32 with hn | ⟨hmin, hmax, hn⟩
  · left
    refine ⟨?_, Or.inr hn⟩
    unfold consoleReadUtf8 fgets
    rw [if_pos hn]
  · have h0 : ¬ (((maxSizeBytes - 1 : Nat) : Int) ≤ 0) := by omega
    have hk : ((maxSizeBytes - 1 : Nat) : Int).toNat - 1 = (maxSizeBytes - 3) + 1 := by omega
    have h1 : ((maxSizeBytes - 1 : Nat) : Int) ≠ 1 := by omega
    by_cases hs : stdin = []
    · left
      refine ⟨?_, Or.inl hs⟩
      unfold consoleReadUtf8 fgets
      rw [hn, if_neg h0]
      simp only [hk]
      rw [if_pos ⟨(fgetsChars_eq_nil_iff _ _).mpr hs, h1⟩]
    · right
      have hc : fgetsChars (maxSizeBytes - 3 + 1) stdin ≠ [] := fun h =>
        hs ((fgetsChars_eq_nil_iff _ _).mp h)
      have hcl := fgetsChars_length_le (maxSizeBytes - 3 + 1) stdin
      have hci := fgetsChars_length_le_input (maxSizeBytes - 3 + 1) stdin
      have hpos : 0 < (fgetsChars (maxSizeBytes - 3 + 1) stdin).length :=
        List.length_pos.mpr hc
      have hsl := strlen_append_zero_le (fgetsChars (maxSizeBytes - 3 + 1) stdin)
        (utf8.drop ((fgetsChars (maxSizeBytes - 3 + 1) stdin).length + 1))
      unfold consoleReadUtf8 fgets
      rw [hn, if_neg h0]
      simp only [hk]
      rw [if_neg (fun h => hc h.1)]
      generalize fgetsChars (maxSizeBytes - 3 + 1) stdin = chars at *
      have ha : chars ++ [0] ++ utf8.drop (chars.length + 1) =
          chars ++ 0 :: utf8.drop (chars.length + 1) := by simp
      simp only [ha]
      generalize strlen (chars ++ 0 :: utf8.drop (chars.length + 1)) = len at *
      have hi : toInt32 len = (len : Int) := toInt32_of_lt (by omega)
      have hge := consoleReadUtf8Loop_value_ge ((len : Int) - 1 + 1).toNat true
        (chars ++ 0 :: utf8.drop (chars.length + 1)) (len : Int)
      refine ⟨?_, ?_, hs, by omega⟩
      · simp only [hi]
        have hk2 : (((len : Int) - 1 + 1).toNat : Int) = len := by omega
        rw [hk2] at hge
        omega
      · simp only [List.length_drop]
        omega

/-- C13 as stated fails for `maxSizeBytes = 2`: `fgets` is handed the size 1, stores
the NUL without reading and returns the buffer, so at the end of the input
`consoleReadUtf8` returns `0`, not a negative value, although nothing was read. -/
theorem consoleReadUtf8_size_two_at_end :
    consoleReadUtf8 [255, 255] 2 [] = { value := 0, utf8 := [0, 255], stdin := [] } ∧
      ¬ (consoleReadUtf8 [255, 255] 2 []).value < 0 := by
  decide

/-- C13 amended: for every `maxSizeBytes` other than 2, at the end of the input
`consoleReadUtf8` returns `-1`; whenever at least one byte is consumed the value
returned is not negative; and the value is negative exactly when no byte was consumed,
in which case it is `-1` and the buffer is untouched. -/
theorem consoleReadUtf8_negative_iff (utf8 stdin : List Nat) (maxSizeBytes : Nat)
    (h32 : maxSizeBytes < 2 ^ 32) (h2 : maxSizeBytes ≠ 2) :
    (stdin = [] → (consoleReadUtf8 utf8 maxSizeBytes stdin).value = -1) ∧
      ((consoleReadUtf8 utf8 maxSizeBytes stdin).stdin.length < stdin.length →
        0 ≤ (consoleReadUtf8 utf8 maxSizeBytes stdin).value) ∧
      ((consoleReadUtf8 utf8 maxSizeBytes stdin).value < 0 ↔
        (consoleReadUtf8 utf8 maxSizeBytes stdin).stdin.length = stdin.length) ∧
      ((consoleReadUtf8 utf8 maxSizeBytes stdin).value < 0 →
        (consoleReadUtf8 utf8 maxSizeBytes stdin).value = -1 ∧
        (consoleReadUtf8 utf8 maxSizeBytes stdin).utf8 = utf8) := by
  rcases consoleReadUtf8_cases utf8 stdin maxSizeBytes h32 h2 with ⟨he, _⟩ | ⟨hv, hl, hs, _⟩
  · rw [he]
    simp
  · refine ⟨fun h => absurd h hs, fun _ => hv, ⟨fun h => ?_, fun h => ?_⟩, fun h => ?_⟩ <;> omega

/-- Instance of the amended C13: a buffer of 8 bytes at the end of the input. -/
theorem consoleReadUtf8_negative_iff_witness :
    (([] : List Nat) = [] → (consoleReadUtf8 (List.replicate 8 255) 8 []).value = -1) ∧
      ((consoleReadUtf8 (List.replicate 8 255) 8 []).stdin.length < ([] : List Nat).length →
        0 ≤ (consoleReadUtf8 (List.replicate 8 255) 8 []).value) ∧
      ((consoleReadUtf8 (List.replicate 8 255) 8 []).value < 0 ↔
        (consoleReadUtf8 (List.replicate 8 255) 8 []).stdin.length = ([] : List Nat).length) ∧
      ((consoleReadUtf8 (List.replicate 8 255) 8 []).value < 0 →
        (consoleReadUtf8 (List.replicate 8 255) 8 []).value = -1 ∧
        (consoleReadUtf8 (List.replicate 8 255) 8 []).utf8 = List.replicate 8 255) :=
  consoleReadUtf8_negative_iff (List.replicate 8 255) [] 8 (by decide) (by decide)

/-! ## Thread exit: what a thread leaves alone -/

theorem Chain.live {heap : Nat → Option DestructorRecord} :
    ∀ {l : List Registration} {head : Nat}, Chain heap head l →
      ∀ r ∈ l, heap r.address ≠ none
  | [], _, _, r, hr => by simp at hr
  | x :: xs, head, h, r, hr => by
    obtain ⟨h1, _, next, h3, h4⟩ := h
    rcases List.mem_cons.mp hr with e | e
    · rw [e, ← h1, h3]; simp
    · exact Chain.live h4 r e

theorem Chain.congr {heap heap' : Nat → Option DestructorRecord} :
    ∀ {l : List Registration} {head : Nat}, Chain heap head l →
      (∀ r ∈ l, heap' r.address = heap r.address) → Chain heap' head l
  | [], _, h, _ => h
  | x :: xs, head, h, he => by
    obtain ⟨h1, h2, next, h3, h4⟩ := h
    refine ⟨h1, h2, next, ?_, Chain.congr h4 (fun r hr => he r (List.mem_cons_of_mem _ hr))⟩
    rw [h1, he x (List.mem_cons_self _ _), ← h1, h3]

/-- C14: with thread-local storage a map from thread to slot value. A registration on
thread `t` (calloc returning a non-null address that holds no live record) leaves the
slot of every other thread and every live record as they were, so every other chain is
the same chain afterwards and does not contain the new record; the new record is the head of `t`, its `next` is the old head,
and the old chain of `t` follows it unchanged. The callback run for `t` on its chain
leaves the slot of every other thread and every record outside the chain of `t` as they
were, so every chain that shares no record with it is the same chain afterwards. -/
theorem thread_exit_frame (t a d p : Nat) (s : Threads) (l : List Registration) (fuel : Nat)
    (ha : a ≠ 0) (hfresh : s.heap a = none)
    (hc : Chain s.heap (s.slot t) l) (hnd : (l.map Registration.address).Nodup)
    (hf : l.length < fuel) :
    (∃ s₁, onThreadExit t a d p s = .ok s₁ ∧
        (∀ u, u ≠ t → s₁.slot u = s.slot u) ∧
        (∀ b, s.heap b ≠ none → s₁.heap b = s.heap b) ∧
        (∀ u lu, u ≠ t → Chain s.heap (s.slot u) lu →
          Chain s₁.heap (s₁.slot u) lu ∧ ∀ r ∈ lu, r.address ≠ a) ∧
        s₁.slot t = a ∧ s₁.heap a = some ⟨s.slot t, d, p⟩ ∧
        Chain s₁.heap (s₁.slot t) (⟨a, d, p⟩ :: l)) ∧
      (∃ s₂, onThreadExitCallback fuel t (s.slot t) s = .ok s₂ ∧
        (∀ u, u ≠ t → s₂.slot u = s.slot u) ∧
        (∀ b, b ∉ l.map Registration.address → s₂.heap b = s.heap b) ∧
        (∀ u lu, u ≠ t → Chain s.heap (s.slot u) lu →
          (∀ r ∈ lu, r.address ∉ l.map Registration.address) → Chain s₂.heap (s₂.slot u) lu)) := by
  have hkeep : ∀ b, s.heap b ≠ none →
      Function.update s.heap a (some ⟨s.slot t, d, p⟩) b = s.heap b := by
    intro b hb
    have hne : b ≠ a := fun e => hb (e ▸ hfresh)
    exact Function.update_noteq hne _ _
  constructor
  · refine ⟨_, onThreadExit_ok t a d p s ha, ?_, hkeep, ?_, ?_, ?_, ?_⟩
    · intro u hu
      exact Function.update_noteq hu _ _
    · intro u lu hu hcu
      have hs : Function.update s.slot t a u = s.slot u := Function.update_noteq hu _ _
      refine ⟨?_, fun r hr e => Chain.live hcu r hr (e ▸ hfresh)⟩
      show Chain _ (Function.update s.slot t a u) lu
      rw [hs]
      exact Chain.congr hcu (fun r hr => hkeep _ (Chain.live hcu r hr))
    · exact Function.update_same _ _ _
    · exact Function.update_same _ _ _
    · have hs : Function.update s.slot t a t = a := Function.update_same _ _ _
      show Chain _ (Function.update s.slot t a t) _
      rw [hs]
      exact ⟨rfl, ha, s.slot t, Function.update_same _ _ _,
        Chain.congr hc (fun r hr => hkeep _ (Chain.live hc r hr))⟩
  · refine ⟨_, onThreadExitCallback_chain l fuel t s hc hnd hf, ?_, ?_, ?_⟩
    · intro u hu
      exact Function.update_noteq hu _ _
    · intro b hb
      exact freeAll_of_not_mem l s.heap hb
    · intro u lu hu hcu hdis
      have hs : Function.update s.slot t 0 u = s.slot u := Function.update_noteq hu _ _
      show Chain _ (Function.update s.slot t 0 u) lu
      rw [hs]
      exact Chain.congr hcu (fun r hr => freeAll_of_not_mem l s.heap (hdis r hr))

/-- Instance of C14 on the state with two threads: thread 1 registers destructor 3 at
address 300, or exits. -/
theorem thread_exit_frame_witness :
    (∃ s₁, onThreadExit 1 300 3 33 Threads.twoThreads = .ok s₁ ∧
        (∀ u, u ≠ 1 → s₁.slot u = Threads.twoThreads.slot u) ∧
        (∀ b, Threads.twoThreads.heap b ≠ none → s₁.heap b = Threads.twoThreads.heap b) ∧
        (∀ u lu, u ≠ 1 → Chain Threads.twoThreads.heap (Threads.twoThreads.slot u) lu →
          Chain s₁.heap (s₁.slot u) lu ∧ ∀ r ∈ lu, r.address ≠ 300) ∧
        s₁.slot 1 = 300 ∧ s₁.heap 300 = some ⟨100, 3, 33⟩ ∧
        Chain s₁.heap (s₁.slot 1) [⟨300, 3, 33⟩, ⟨100, 1, 11⟩]) ∧
      (∃ s₂, onThreadExitCallback 2 1 100 Threads.twoThreads = .ok s₂ ∧
        (∀ u, u ≠ 1 → s₂.slot u = Threads.twoThreads.slot u) ∧
        (∀ b, b ∉ [100] → s₂.heap b = Threads.twoThreads.heap b) ∧
        (∀ u lu, u ≠ 1 → Chain Threads.twoThreads.heap (Threads.twoThreads.slot u) lu →
          (∀ r ∈ lu, r.address ∉ [100]) → Chain s₂.heap (s₂.slot u) lu)) :=
  thread_exit_frame 1 300 3 33 Threads.twoThreads [⟨100, 1, 11⟩] 2 (by decide) rfl
    ⟨rfl, by decide, 0, rfl, rfl⟩ (by decide) (by decide)

/-! ## The growth shim, paged strategy: page arithmetic and the notification -/

/-- C15: for `0 < delta <= 2^31 - 1`, `pageAlign(delta)` is the least multiple of
`getpagesize() = 65536 = 2^16` that is at least `delta`; converting it to pages and
back to bytes gives it again; and a grow that the platform grants extends the memory
by exactly `pageAlign(delta)` bytes, which is at least `delta`. -/
theorem pageAlign_least_multiple (delta : Int) (m : wasm.Memory) (h0 : 0 < delta)
    (h1 : delta ≤ 2 ^ 31 - 1)
    (hg : m.pages + wasm.inPages (wasm.pageAlign delta) ≤ m.maxPages) :
    wasm.getpagesize = 65536 ∧ wasm.getpagesize = 2 ^ 16 ∧
      wasm.getpagesize ∣ wasm.pageAlign delta ∧
      delta ≤ (wasm.pageAlign delta : Int) ∧
      (∀ k : Nat, wasm.getpagesize ∣ k → delta ≤ (k : Int) → wasm.pageAlign delta ≤ k) ∧
      wasm.inBytes (wasm.inPages (wasm.pageAlign delta)) = wasm.pageAlign delta ∧
      (wasm.wasmMemoryGrow (wasm.inPages (wasm.pageAlign delta)) m).2.pages * 65536 =
        m.pages * 65536 + wasm.pageAlign delta := by
  have hp : wasm.getpagesize = 65536 := by decide
  have ha := pageAlign_of_nonneg delta (le_of_lt h0) (by omega)
  have hk := inPages_pageAlign delta (le_of_lt h0) (by omega)
  have hd : (delta.toNat : Int) = delta := Int.toNat_of_nonneg (le_of_lt h0)
  have hlt : delta.toNat < 2 ^ 31 := by omega
  refine ⟨hp, by decide, ?_, ?_, ?_, ?_, ?_⟩
  · rw [hp, ha]
    exact Dvd.intro_left _ rfl
  · rw [ha]
    omega
  · intro k hdvd hle
    rw [hp] at hdvd
    obtain ⟨c, rfl⟩ := hdvd
    rw [ha]
    have : delta.toNat ≤ 65536 * c := by omega
    omega
  · rw [hk, inBytes_eq, ha]
    exact Nat.mod_eq_of_lt (by omega)
  · simp only [wasm.wasmMemoryGrow, if_pos hg]
    rw [hk, ha]
    omega

/-- Instance of C15: `delta = 65537` on a memory of 1 page that may grow to 8. -/
theorem pageAlign_least_multiple_witness :
    wasm.getpagesize = 65536 ∧ wasm.getpagesize = 2 ^ 16 ∧
      wasm.getpagesize ∣ wasm.pageAlign 65537 ∧
      (65537 : Int) ≤ (wasm.pageAlign 65537 : Int) ∧
      (∀ k : Nat, wasm.getpagesize ∣ k → (65537 : Int) ≤ (k : Int) → wasm.pageAlign 65537 ≤ k) ∧
      wasm.inBytes (wasm.inPages (wasm.pageAlign 65537)) = wasm.pageAlign 65537 ∧
      (wasm.wasmMemoryGrow (wasm.inPages (wasm.pageAlign 65537)) ⟨1, 8, []⟩).2.pages * 65536 =
        1 * 65536 + wasm.pageAlign 65537 :=
  pageAlign_least_multiple 65537 ⟨1, 8, []⟩ (by decide) (by decide) (by decide)

/-- C16 as stated fails: on a memory of 2 pages that cannot grow, `moreCore(65536)` asks
for one page, the primitive refuses and returns `-1`, and the notification is sent all
the same, with the memory still at 2 pages. -/
theorem wasm_notify_after_refused_grow :
    (wasm.moreCore 65536 ⟨2, 2, []⟩).2 =
        ⟨2, 2, [wasm.MemoryEvent.memoryGrow 1 (2 ^ 32 - 1),
                wasm.MemoryEvent.notifyMemoryGrow 2]⟩ ∧
      ¬ wasm.notifications (wasm.moreCore 65536 ⟨2, 2, []⟩).2.trace = 0 := by
  decide

theorem wasm_notifications_append (l₁ l₂ : List wasm.MemoryEvent) :
    wasm.notifications (l₁ ++ l₂) = wasm.notifications l₁ + wasm.notifications l₂ := by
  induction l₁ with
  | nil => simp [wasm.notifications]
  | cons e es ih =>
    cases e
    · simp [wasm.notifications, ih]
    · simp [wasm.notifications, ih]; omega

/-- C16 amended: `moreCore(delta)` with `delta > 0` calls the grow primitive once and
then sends exactly one notification, whether the grow was granted or refused; the
notification comes after the primitive has returned, so it sees the grown size when the
grow was granted. For `delta <= 0` nothing is added to the trace: no notification. -/
theorem wasm_moreCore_notifies (delta : Int) (m : wasm.Memory) :
    (wasm.moreCore delta m).2.trace =
        m.trace ++
          (if 0 < delta then
            [wasm.MemoryEvent.memoryGrow (wasm.inPages (wasm.pageAlign delta))
                (wasm.wasmMemoryGrow (wasm.inPages (wasm.pageAlign delta)) m).1,
              wasm.MemoryEvent.notifyMemoryGrow
                (wasm.wasmMemoryGrow (wasm.inPages (wasm.pageAlign delta)) m).2.pages]
          else []) ∧
      wasm.notifications (wasm.moreCore delta m).2.trace =
        wasm.notifications m.trace + (if 0 < delta then 1 else 0) ∧
      (wasm.moreCore delta m).2.pages =
        (if 0 < delta then (wasm.wasmMemoryGrow (wasm.inPages (wasm.pageAlign delta)) m).2.pages
          else m.pages) := by
  have key : (wasm.moreCore delta m).2.trace =
        m.trace ++
          (if 0 < delta then
            [wasm.MemoryEvent.memoryGrow (wasm.inPages (wasm.pageAlign delta))
                (wasm.wasmMemoryGrow (wasm.inPages (wasm.pageAlign delta)) m).1,
              wasm.MemoryEvent.notifyMemoryGrow
                (wasm.wasmMemoryGrow (wasm.inPages (wasm.pageAlign delta)) m).2.pages]
          else []) ∧
      (wasm.moreCore delta m).2.pages =
        (if 0 < delta then (wasm.wasmMemoryGrow (wasm.inPages (wasm.pageAlign delta)) m).2.pages
          else m.pages) := by
    by_cases hd : 0 < delta
    · simp only [wasm.moreCore, wasm.growMemory, wasm.Konan_notify_memory_grow, gt_iff_lt,
        if_pos hd]
      by_cases hg : m.pages + wasm.inPages (wasm.pageAlign delta) ≤ m.maxPages
      · simp only [wasm.wasmMemoryGrow, if_pos hg]
        split <;> simp
      · simp only [wasm.wasmMemoryGrow, if_neg hg]
        split <;> simp
    · simp only [wasm.moreCore, gt_iff_lt, if_neg hd]
      split <;> simp
  refine ⟨key.1, ?_, key.2⟩
  rw [key.1, wasm_notifications_append]
  by_cases hd : 0 < delta
  · simp [hd, wasm.notifications]
  · simp [hd, wasm.notifications]

/-! ## The next-prime stub -/

/-- The loop over the whole table, as a cascade of comparisons. -/
theorem nextPrimeLoop_primes (n : Nat) :
    nextPrimeLoop primes 11 n =
      if n ≤ 11 then 11 else if n ≤ 101 then 101 else if n ≤ 1009 then 1009
      else if n ≤ 10007 then 10007 else if n ≤ 100003 then 100003
      else if n ≤ 1000003 then 1000003 else if n ≤ 10000019 then 10000019
      else if n ≤ 100000007 then 100000007 else 1000000007 := by
  simp only [primes, nextPrimeLoop, ge_iff_le]
  split_ifs <;> rfl

theorem next_prime_ok (n : Nat) (h : n ≤ 1000000007) :
    _ZNSt3__212__next_primeEj n = .ok ((nextPrimeLoop primes 11 n : Nat) : Int) := by
  have hlast : primes.getD (primes.length - 1) 0 = 1000000007 := by decide
  have hfirst : primes.getD 0 0 = 11 := by decide
  have hlt : nextPrimeLoop primes 11 n < 2 ^ 31 := by
    rw [nextPrimeLoop_primes]
    split_ifs <;> decide
  unfold _ZNSt3__212__next_primeEj
  simp only [hlast, hfirst]
  rw [if_neg (by omega), toInt32_of_lt hlt]

/-- The loop returns the least entry of the table that is at least `n`. -/
theorem nextPrimeLoop_least (n : Nat) (h : n ≤ 1000000007) :
    nextPrimeLoop primes 11 n ∈ primes ∧ n ≤ nextPrimeLoop primes 11 n ∧
      ∀ e ∈ primes, n ≤ e → nextPrimeLoop primes 11 n ≤ e := by
  rw [nextPrimeLoop_primes]
  refine ⟨?_, ?_, ?_⟩
  · split_ifs <;> decide
  · split_ifs <;> omega
  · intro e he hne
    simp only [primes, List.mem_cons, List.mem_singleton, List.not_mem_nil, or_false] at he
    split_ifs <;> omega

/-- C18: for `n <= m <= 1000000007` the stub returns for `n` the least entry of the
table that is at least `n`, and the result for `m` is not smaller (monotone); for
`k > 1000000007` it aborts. -/
theorem next_prime_least_entry (n m k : Nat) (hnm : n ≤ m) (hm : m ≤ 1000000007)
    (hk : 1000000007 < k) :
    (∃ p q : Nat, _ZNSt3__212__next_primeEj n = .ok (p : Int) ∧
        _ZNSt3__212__next_primeEj m = .ok (q : Int) ∧
        p ∈ primes ∧ n ≤ p ∧ (∀ e ∈ primes, n ≤ e → p ≤ e) ∧ p ≤ q) ∧
      _ZNSt3__212__next_primeEj k = .error Fault.aborted := by
  obtain ⟨hn1, hn2, hn3⟩ := nextPrimeLoop_least n (by omega)
  obtain ⟨hm1, hm2, _⟩ := nextPrimeLoop_least m hm
  constructor
  · exact ⟨_, _, next_prime_ok n (by omega), next_prime_ok m hm, hn1, hn2, hn3,
      hn3 _ hm1 (by omega)⟩
  · have hlast : primes.getD (primes.length - 1) 0 = 1000000007 := by decide
    unfold _ZNSt3__212__next_primeEj
    simp only [hlast]
    rw [if_pos hk]

/-- Instance of C18: `n = 12`, `m = 5000`, `k = 1000000008`. -/
theorem next_prime_least_entry_witness :
    (∃ p q : Nat, _ZNSt3__212__next_primeEj 12 = .ok (p : Int) ∧
        _ZNSt3__212__next_primeEj 5000 = .ok (q : Int) ∧
        p ∈ primes ∧ 12 ≤ p ∧ (∀ e ∈ primes, 12 ≤ e → p ≤ e) ∧ p ≤ q) ∧
      _ZNSt3__212__next_primeEj 1000000008 = .error Fault.aborted :=
  next_prime_least_entry 12 5000 1000000008 (by decide) (by decide) (by decide)

/-! ## strnlen -/

/-- The indices read by the loop when no byte below `maxlen` is zero: all of them up
to and including `maxlen`. -/
theorem strnlenLoop_no_zero (s : Nat → Nat) (maxlen : Nat) :
    ∀ (k i : Nat) (reads : List Nat), i + k = maxlen + 1 →
      (∀ j, i ≤ j → j < maxlen → s j ≠ 0) →
      wasm.strnlenLoop s maxlen k i reads = (maxlen, reads ++ List.range' i k)
  | 0, i, reads, _, _ => by simp [wasm.strnlenLoop]
  | k + 1, i, reads, hk, hz => by
    simp only [wasm.strnlenLoop]
    by_cases h0 : s i = 0
    · have hi : i = maxlen := by
        by_contra hne
        exact hz i (le_refl i) (by omega) h0
      have hk0 : k = 0 := by omega
      subst hk0
      rw [if_pos h0, hi]
      simp [List.range']
    · rw [if_neg h0, strnlenLoop_no_zero s maxlen k (i + 1) (reads ++ [i]) (by omega)
        (fun j hj hlt => hz j (by omega) hlt)]
      simp [List.range']

/-- On a buffer whose first `maxlen` bytes are not zero, `strnlen` returns `maxlen` and
reads the indices `0, ..., maxlen`: the byte at index `maxlen` is read as well. -/
theorem strnlen_no_zero (s : Nat → Nat) (maxlen : Nat) (hz : ∀ j, j < maxlen → s j ≠ 0) :
    wasm.strnlen s maxlen = (maxlen, List.range (maxlen + 1)) ∧
      maxlen ∈ (wasm.strnlen s maxlen).2 := by
  have h := strnlenLoop_no_zero s maxlen (maxlen + 1) 0 [] (by omega) (fun j _ hj => hz j hj)
  have e : wasm.strnlen s maxlen = (maxlen, List.range (maxlen + 1)) := by
    unfold wasm.strnlen
    rw [h, List.range_eq_range']
    simp
  rw [e]
  exact ⟨rfl, List.mem_range.mpr (Nat.lt_succ_self _)⟩

/-- C20, at a buffer of 3 bytes `A` with `maxlen = 3` (the byte that follows the
buffer is 7 in one memory and 0 in another): `strnlen` returns 3 in both, and in both it
reads index 3, outside the 3 readable bytes, because the loop runs while
`i <= maxlen`. -/
theorem strnlen_reads_past_maxlen :
    wasm.strnlen (fun i => if i < 3 then 65 else 7) 3 = (3, [0, 1, 2, 3]) ∧
      wasm.strnlen (fun i => if i < 3 then 65 else 0) 3 = (3, [0, 1, 2, 3]) ∧
      ¬ (∀ i ∈ (wasm.strnlen (fun i => if i < 3 then 65 else 7) 3).2, i < 3) := by
  decide

/-! ## memcpy and memmove -/

theorem wasm_load_ok (m : wasm.LinearMemory) (a : Nat) (h : a < m.size) :
    wasm.load m a = .ok (m.byte a) := by
  simp [wasm.load, h]

theorem wasm_store_ok (m : wasm.LinearMemory) (a v : Nat) (h : a < m.size) :
    wasm.store m a v = .ok { m with byte := Function.update m.byte a v } := by
  simp [wasm.store, h]

/-- The forward loop, for a destination that does not lie above the source: the bytes
`i .. i + k` of the destination receive the old bytes of the source, and nothing else
changes. -/
theorem memcpyLoop_forward (dst src : Nat) (hds : dst ≤ src) :
    ∀ (k i : Nat) (m : wasm.LinearMemory), src + i + k ≤ m.size →
      ∃ m', wasm.memcpyLoop dst src k i m = .ok m' ∧ m'.size = m.size ∧
        (∀ j, i ≤ j → j < i + k → m'.byte (dst + j) = m.byte (src + j)) ∧
        (∀ a, a < dst + i ∨ dst + i + k ≤ a → m'.byte a = m.byte a)
  | 0, i, m, _ => ⟨m, rfl, rfl, fun j h1 h2 => by omega, fun _ _ => rfl⟩
  | k + 1, i, m, hs => by
    have hl := wasm_load_ok m (src + i) (by omega)
    have hst := wasm_store_ok m (dst + i) (m.byte (src + i)) (by omega)
    obtain ⟨m', he, hsz, hcopy, hframe⟩ := memcpyLoop_forward dst src hds k (i + 1)
      { m with byte := Function.update m.byte (dst + i) (m.byte (src + i)) }
      (by show src + (i + 1) + k ≤ m.size; omega)
    refine ⟨m', ?_, hsz, ?_, ?_⟩
    · simp only [wasm.memcpyLoop, hl, hst]
      exact he
    · intro j h1 h2
      rcases Nat.eq_or_lt_of_le h1 with e | hlt
      · subst e
        rw [hframe (dst + i) (Or.inl (by omega))]
        exact Function.update_same _ _ _
      · rw [hcopy j (by omega) (by omega)]
        exact Function.update_noteq (by omega) _ _
    · intro a ha
      rw [hframe a (by omega)]
      exact Function.update_noteq (by omega) _ _

/-- The backward loop, for a source that does not lie above the destination: the first
`i` bytes of the destination receive the old bytes of the source, and nothing else
changes. -/
theorem memmoveLoop_backward (dst src : Nat) (hsd : src ≤ dst) :
    ∀ (i : Nat) (m : wasm.LinearMemory), dst + i ≤ m.size →
      ∃ m', wasm.memmoveLoop dst src i m = .ok m' ∧ m'.size = m.size ∧
        (∀ j, j < i → m'.byte (dst + j) = m.byte (src + j)) ∧
        (∀ a, a < dst ∨ dst + i ≤ a → m'.byte a = m.byte a)
  | 0, m, _ => ⟨m, rfl, rfl, fun j h => by omega, fun _ _ => rfl⟩
  | i + 1, m, hs => by
    have e1 : src + (i + 1) - 1 = src + i := by omega
    have e2 : dst + (i + 1) - 1 = dst + i := by omega
    have hl := wasm_load_ok m (src + i) (by omega)
    have hst := wasm_store_ok m (dst + i) (m.byte (src + i)) (by omega)
    obtain ⟨m', he, hsz, hcopy, hframe⟩ := memmoveLoop_backward dst src hsd i
      { m with byte := Function.update m.byte (dst + i) (m.byte (src + i)) }
      (by show dst + i ≤ m.size; omega)
    refine ⟨m', ?_, hsz, ?_, ?_⟩
    · simp only [wasm.memmoveLoop, e1, e2, hl, hst]
      exact he
    · intro j hj
      rcases Nat.eq_or_lt_of_le (Nat.le_of_lt_succ hj) with e | hlt
      · subst e
        rw [hframe (dst + j) (Or.inr (le_refl _))]
        exact Function.update_same _ _ _
      · rw [hcopy j hlt]
        exact Function.update_noteq (by omega) _ _
    · intro a ha
      rw [hframe a (by omega)]
      exact Function.update_noteq (by omega) _ _

/-- C19: for ranges `dst[0 .. len)` and `src[0 .. len)` inside the memory, in any
relative position, `memmove(dst, src, len)` returns `dst`; afterwards every byte
`dst[j]` with `j < len` is the byte `src[j]` held before the call, every byte outside
`dst[0 .. len)` is unchanged, and the size of the memory is the same. -/
theorem memmove_overlapping (dst src len : Nat) (m : wasm.LinearMemory)
    (hdst : dst + len ≤ m.size) (hsrc : src + len ≤ m.size) :
    ∃ m', wasm.memmove dst src len m = .ok (dst, m') ∧ m'.size = m.size ∧
      (∀ j, j < len → m'.byte (dst + j) = m.byte (src + j)) ∧
      (∀ a, a < dst ∨ dst + len ≤ a → m'.byte a = m.byte a) := by
  by_cases h : src < dst
  · obtain ⟨m', he, hsz, hcopy, hframe⟩ := memmoveLoop_backward dst src (le_of_lt h) len m hdst
    refine ⟨m', ?_, hsz, hcopy, hframe⟩
    simp only [wasm.memmove, if_pos h, he]
  · obtain ⟨m', he, hsz, hcopy, hframe⟩ :=
      memcpyLoop_forward dst src (Nat.le_of_not_lt h) len 0 m (by omega)
    refine ⟨m', ?_, hsz, fun j hj => hcopy j (Nat.zero_le _) (by omega),
      fun a ha => hframe a (by omega)⟩
    simp only [wasm.memmove, if_neg h, wasm.memcpy, he]

/-- Instance of C19: in a memory of 8 bytes holding `10, 11, ..., 17`, moving 4 bytes
from address 0 to address 2, an overlap with the destination above the source. -/
theorem memmove_overlapping_witness :
    ∃ m', wasm.memmove 2 0 4 ⟨8, fun a => a + 10⟩ = .ok (2, m') ∧ m'.size = 8 ∧
      (∀ j, j < 4 → m'.byte (2 + j) = 0 + j + 10) ∧
      (∀ a, a < 2 ∨ 2 + 4 ≤ a → m'.byte a = a + 10) :=
  memmove_overlapping 2 0 4 ⟨8, fun a => a + 10⟩ (by decide) (by decide)

/-! ## memmem -/

theorem toChar_eq_iff {a b : Nat} (ha : a < 256) (hb : b < 256) :
    toChar a = toChar b ↔ a = b := by
  unfold toChar
  rw [Nat.mod_eq_of_lt ha, Nat.mod_eq_of_lt hb]
  constructor
  · intro h
    split_ifs at h <;> omega
  · intro h
    rw [h]

/-- Within both sequences `memcmp` returns, and it returns zero exactly when the first
`n` bytes agree. -/
theorem memcmp_eq_zero_iff :
    ∀ (n : Nat) (s1 s2 : List Nat), n ≤ s1.length → n ≤ s2.length →
      (∀ b ∈ s1, b < 256) → (∀ b ∈ s2, b < 256) →
      ∃ c, wasm.memcmp s1 s2 n = .ok c ∧ (c = 0 ↔ s1.take n = s2.take n)
  | 0, s1, s2, _, _, _, _ => ⟨0, by cases s1 <;> cases s2 <;> rfl, by simp⟩
  | n + 1, [], _, h1, _, _, _ => by simp at h1
  | n + 1, _ :: _, [], _, h2, _, _ => by simp at h2
  | n + 1, a :: s1, b :: s2, h1, h2, hb1, hb2 => by
    have ha : a < 256 := hb1 a (List.mem_cons_self _ _)
    have hb : b < 256 := hb2 b (List.mem_cons_self _ _)
    by_cases hab : toChar a = toChar b
    · have e : a = b := (toChar_eq_iff ha hb).mp hab
      obtain ⟨c, hc, hiff⟩ := memcmp_eq_zero_iff n s1 s2
        (by simpa using h1) (by simpa using h2)
        (fun x hx => hb1 x (List.mem_cons_of_mem _ hx))
        (fun x hx => hb2 x (List.mem_cons_of_mem _ hx))
      refine ⟨c, ?_, ?_⟩
      · simp only [wasm.memcmp, ne_eq, hab, not_true_eq_false, if_false]
        exact hc
      · rw [hiff, e]
        simp
    · have e : a ≠ b := fun h => hab (by rw [h])
      refine ⟨toChar a - toChar b, ?_, ?_⟩
      · simp only [wasm.memcmp, ne_eq, hab, not_false_eq_true, if_true]
      · constructor
        · intro h
          exact absurd (by omega) hab
        · intro h
          simp only [List.take_succ_cons, List.cons.injEq] at h
          exact absurd h.1 e

/-- The comparison `memmem` makes at an index where `little` still fits into `big`. -/
theorem memcmp_at (big little : List Nat) (i : Nat) (hb : ∀ b ∈ big, b < 256)
    (hl : ∀ b ∈ little, b < 256) (hfit : i + little.length ≤ big.length) :
    ∃ c, wasm.memcmp little (big.drop i) little.length = .ok c ∧
      (c = 0 ↔ occursAt big little i) := by
  obtain ⟨c, hc, hiff⟩ := memcmp_eq_zero_iff little.length little (big.drop i) (le_refl _)
    (by rw [List.length_drop]; omega) hl (fun b hb' => hb b (List.mem_of_mem_drop hb'))
  refine ⟨c, hc, ?_⟩
  rw [hiff, List.take_length]
  unfold occursAt
  constructor
  · intro h
    exact ⟨hfit, h.symm⟩
  · intro h
    exact h.2.symm

/-- The search from index `i` on, with `d` indices left to try: it returns the first
occurrence at or after `i`, or null when there is none. -/
theorem memmemLoop_first (sizeBits : Nat) (big little : List Nat)
    (hb : ∀ b ∈ big, b < 256) (hl : ∀ b ∈ little, b < 256)
    (hB : big.length + 1 < 2 ^ sizeBits) :
    ∀ (d fuel i : Nat), i + little.length + d = big.length + 1 → d < fuel →
      ∃ r, memmemLoop sizeBits big big.length little little.length fuel i = .ok r ∧
        (∀ k, r = some k → i ≤ k ∧ occursAt big little k ∧
          ∀ j, i ≤ j → j < k → ¬ occursAt big little j) ∧
        (r = none → ∀ j, i ≤ j → ¬ occursAt big little j)
  | 0, fuel, i, hd, hf => by
    obtain ⟨fuel, rfl⟩ : ∃ f, fuel = f + 1 := ⟨fuel - 1, by omega⟩
    have hmod : (i + little.length) % 2 ^ sizeBits = i + little.length :=
      Nat.mod_eq_of_lt (by omega)
    refine ⟨none, ?_, fun k hk => by simp at hk, fun _ j hj ho => ?_⟩
    · simp only [memmemLoop, hmod]
      rw [if_neg (by omega)]
    · have := ho.1
      omega
  | d + 1, fuel, i, hd, hf => by
    obtain ⟨fuel, rfl⟩ : ∃ f, fuel = f + 1 := ⟨fuel - 1, by omega⟩
    have hmod : (i + little.length) % 2 ^ sizeBits = i + little.length :=
      Nat.mod_eq_of_lt (by omega)
    have hmod1 : (i + 1) % 2 ^ sizeBits = i + 1 := Nat.mod_eq_of_lt (by omega)
    obtain ⟨c, hc, hiff⟩ := memcmp_at big little i hb hl (by omega)
    by_cases h0 : c = 0
    · refine ⟨some i, ?_, ?_, fun h => by simp at h⟩
      · simp only [memmemLoop, hmod, hc, h0]
        rw [if_pos (by omega)]
        simp
      · intro k hk
        have e : i = k := by simpa using hk
        subst e
        exact ⟨le_refl _, hiff.mp h0, fun j h1 h2 => by omega⟩
    · obtain ⟨r, hr, hsome, hnone⟩ := memmemLoop_first sizeBits big little hb hl hB d fuel
        (i + 1) (by omega) (by omega)
      have hni : ¬ occursAt big little i := fun h => h0 (hiff.mpr h)
      refine ⟨r, ?_, ?_, ?_⟩
      · simp only [memmemLoop, hmod, hc, hmod1]
        rw [if_pos (by omega), if_neg h0]
        exact hr
      · intro k hk
        obtain ⟨h1, h2, h3⟩ := hsome k hk
        refine ⟨by omega, h2, fun j hj hjk => ?_⟩
        rcases Nat.eq_or_lt_of_le hj with e | hlt
        · rw [← e]; exact hni
        · exact h3 j hlt hjk
      · intro hn j hj
        rcases Nat.eq_or_lt_of_le hj with e | hlt
        · rw [← e]; exact hni
        · exact hnone hn j hlt

/-- C17: for byte sequences `big` and `little` (lengths representable in `size_t`, with
`bigLen` below its maximum) and fuel above `bigLen + 1`, the fallback `memmem` returns
without a fault, so it reads no byte past the end of `big` or `little`; it returns
`big + i` exactly for the least `i` at which `little` occurs in `big`, and null exactly
when there is no occurrence; in particular `big` itself for an empty `little`, and null
for a `little` longer than `big`. -/
theorem memmem_first_occurrence (sizeBits fuel : Nat) (big little : List Nat)
    (hb : ∀ b ∈ big, b < 256) (hl : ∀ b ∈ little, b < 256)
    (hB : big.length + 1 < 2 ^ sizeBits) (hL : little.length < 2 ^ sizeBits)
    (hf : big.length + 1 < fuel) :
    ∃ r, memmem sizeBits fuel big big.length little little.length = .ok r ∧
      (∀ i, r = some i ↔ (occursAt big little i ∧ ∀ j, j < i → ¬ occursAt big little j)) ∧
      (r = none ↔ ∀ i, ¬ occursAt big little i) ∧
      (little = [] → r = some 0) ∧
      (big.length < little.length → r = none) := by
  have key : ∃ r, memmem sizeBits fuel big big.length little little.length = .ok r ∧
      (∀ k, r = some k → occursAt big little k ∧ ∀ j, j < k → ¬ occursAt big little j) ∧
      (r = none → ∀ j, ¬ occursAt big little j) := by
    by_cases hfit : little.length ≤ big.length
    · obtain ⟨r, hr, hsome, hnone⟩ := memmemLoop_first sizeBits big little hb hl hB
        (big.length + 1 - little.length) fuel 0 (by omega) (by omega)
      exact ⟨r, hr, fun k hk => ⟨(hsome k hk).2.1, fun j hj => (hsome k hk).2.2 j (Nat.zero_le _) hj⟩,
        fun hn j => hnone hn j (Nat.zero_le _)⟩
    · obtain ⟨f, rfl⟩ : ∃ f, fuel = f + 1 := ⟨fuel - 1, by omega⟩
      have hmod : (0 + little.length) % 2 ^ sizeBits = little.length := by
        rw [Nat.zero_add]; exact Nat.mod_eq_of_lt hL
      refine ⟨none, ?_, fun k hk => by simp at hk, fun _ j ho => ?_⟩
      · simp only [memmem, memmemLoop, hmod]
        rw [if_neg hfit]
      · have := ho.1
        omega
  obtain ⟨r, hr, hsome, hnone⟩ := key
  have huniq : ∀ i, (occursAt big little i ∧ ∀ j, j < i → ¬ occursAt big little j) →
      r = some i := by
    intro i ⟨hi, hmin⟩
    cases r with
    | none => exact absurd hi (hnone rfl i)
    | some k =>
      obtain ⟨hk, hkmin⟩ := hsome k rfl
      rcases Nat.lt_trichotomy i k with h | h | h
      · exact absurd hi (hkmin i h)
      · rw [h]
      · exact absurd hk (hmin k h)
  refine ⟨r, hr, fun i => ⟨hsome i, huniq i⟩, ⟨hnone, fun h => ?_⟩, fun h => ?_, fun h => ?_⟩
  · cases r with
    | none => rfl
    | some k => exact absurd (hsome k rfl).1 (h k)
  · subst h
    exact huniq 0 ⟨⟨by simp, by simp⟩, fun j hj => by omega⟩
  · cases r with
    | none => rfl
    | some k =>
      have := (hsome k rfl).1.1
      omega

/-- Instance of C17: searching `2, 3` in `1, 2, 3, 4, 2, 3` with a 32-bit `size_t`. -/
theorem memmem_first_occurrence_witness :
    ∃ r, memmem 32 8 [1, 2, 3, 4, 2, 3] 6 [2, 3] 2 = .ok r ∧
      (∀ i, r = some i ↔ (occursAt [1, 2, 3, 4, 2, 3] [2, 3] i ∧
        ∀ j, j < i → ¬ occursAt [1, 2, 3, 4, 2, 3] [2, 3] j)) ∧
      (r = none ↔ ∀ i, ¬ occursAt [1, 2, 3, 4, 2, 3] [2, 3] i) ∧
      (([2, 3] : List Nat) = [] → r = some 0) ∧
      (([1, 2, 3, 4, 2, 3] : List Nat).length < ([2, 3] : List Nat).length → r = none) :=
  memmem_first_occurrence 32 8 [1, 2, 3, 4, 2, 3] [2, 3] (by decide) (by decide) (by decide)
    (by decide) (by decide)

/-! ## Console input: what is written -/

theorem consoleReadUtf8Loop_drop :
    ∀ (k : Nat) (b : Bool) (buffer : List Nat) (length : Int) (j : Nat), k ≤ j →
      (consoleReadUtf8Loop k b buffer length).1.drop j = buffer.drop j
  | 0, _, _, _, _, _ => by simp [consoleReadUtf8Loop]
  | k + 1, false, _, _, _, _ => by simp [consoleReadUtf8Loop]
  | k + 1, true, buffer, length, j, hj => by
    simp only [consoleReadUtf8Loop]
    split
    · rw [consoleReadUtf8Loop_drop k true _ _ j (by omega)]
      exact List.drop_set_of_lt _ _ (by omega)
    · rw [consoleReadUtf8Loop_false]

/-- Whatever the input, `consoleReadUtf8` leaves the buffer from index
`maxSizeBytes - 1` on as it was: it writes at most `maxSizeBytes - 1` bytes. -/
theorem consoleReadUtf8_writes_below (utf8 stdin : List Nat) (maxSizeBytes : Nat)
    (h32 : maxSizeBytes < 2 ^ 32) :
    (consoleReadUtf8 utf8 maxSizeBytes stdin).utf8.drop (maxSizeBytes - 1) =
      utf8.drop (maxSizeBytes - 1) := by
  rcases fgets_size_cases maxSizeBytes h32 with hn | ⟨hmin, hmax, hn⟩
  · unfold consoleReadUtf8 fgets
    rw [if_pos hn]
  · have h0 : ¬ (((maxSizeBytes - 1 : Nat) : Int) ≤ 0) := by omega
    have hk : ((maxSizeBytes - 1 : Nat) : Int).toNat - 1 = maxSizeBytes - 2 := by omega
    have hcl := fgetsChars_length_le (maxSizeBytes - 2) stdin
    have hsl := strlen_append_zero_le (fgetsChars (maxSizeBytes - 2) stdin)
      (utf8.drop ((fgetsChars (maxSizeBytes - 2) stdin).length + 1))
    unfold consoleReadUtf8 fgets
    rw [hn, if_neg h0]
    simp only [hk]
    split_ifs with hc
    · rfl
    · generalize fgetsChars (maxSizeBytes - 2) stdin = chars at *
      have ha : chars ++ [0] ++ utf8.drop (chars.length + 1) =
          chars ++ 0 :: utf8.drop (chars.length + 1) := by simp
      simp only [ha]
      generalize hlen : strlen (chars ++ 0 :: utf8.drop (chars.length + 1)) = len at *
      have hi : toInt32 len = (len : Int) := toInt32_of_lt (by omega)
      have hk2 : ((len : Int) - 1 + 1).toNat = len := by omega
      simp only [hi, hk2]
      rw [consoleReadUtf8Loop_drop len true _ _ (maxSizeBytes - 1) (by omega)]
      have e : maxSizeBytes - 1 = (chars ++ [0]).length + (maxSizeBytes - 2 - chars.length) := by
        simp; omega
      have e2 : chars ++ 0 :: utf8.drop (chars.length + 1) =
          (chars ++ [0]) ++ utf8.drop (chars.length + 1) := by simp
      rw [e2, e, List.drop_append, List.drop_drop]
      congr 1
      simp

end konan
